import Mathlib

/-!
Verification of the route-optimization engine of `xiv-tc-treasure-finder`.

The engine exists in two variants in the repository:

* `src/js/route-optimizer.js` — region-aware map ordering (`sortMaps` keyed by a
  static region table) with an optional start waypoint; modelled below in
  namespace `RO`.
* `src/unnamed/part_000` — centroid-greedy map ordering (`sortMaps` picking the
  nearest map centre), no start waypoint; modelled in namespace `ROB`.

Modelling conventions:

* JavaScript numbers are modelled as exact rationals `ℚ`; Euclidean distances
  (which the source computes with `Math.sqrt`) are modelled as real numbers
  `Real.sqrt` of the rational squared distance.  All *control-flow* comparisons
  of distances in the source are modelled by decidable comparisons on the
  rational squared distances, which agree with the source's comparisons of
  square roots because `Real.sqrt` is strictly monotone on nonnegatives; the
  bridging lemmas (`distR_lt_distR_iff`, `sqrtSumLt_iff`) prove this agreement.
* The 2-opt acceptance test compares sums of two square roots; `sqrtSumLt`
  decides `√a + √b < √c + √d` exactly over `ℚ` and `sqrtSumLt_iff` proves it
  correct.
* A JavaScript object keyed by numeric map ids is modelled by its ascending
  key list (the iteration order `Object.keys` guarantees for integer-like
  keys) together with the bucket of each key; an object keyed by strings
  (region names) is modelled by its key list in first-insertion order.
* `Array.prototype.sort` (stable, ES2019+) with a consistent comparator `c` is
  modelled by `List.insertionSort` with the relation `c a b ≤ 0`, which is the
  unique stable sort for that total preorder.
* A possibly-`null`/`undefined` argument is modelled as an `Option`.
-/

namespace TF

/-- 2-D coordinates `{x, y}` with exact rational components. -/
structure Coords where
  x : ℚ
  y : ℚ
deriving DecidableEq, Repr

/-- A treasure waypoint: opaque id, map id and coordinates. -/
structure Waypoint where
  wid : ℕ
  mapId : ℕ
  coords : Coords
deriving DecidableEq, Repr

instance : Inhabited Coords := ⟨⟨0, 0⟩⟩
instance : Inhabited Waypoint := ⟨⟨0, 0, ⟨0, 0⟩⟩⟩

/-- Squared Euclidean distance, the radicand of `calcDistance` in the source:
`(p1.x - p2.x)^2 + (p1.y - p2.y)^2`. -/
def dist2 (p q : Coords) : ℚ :=
  (p.x - q.x) ^ 2 + (p.y - q.y) ^ 2

/-- `calcDistance` of the source: Euclidean distance
`sqrt((p1.x-p2.x)^2 + (p1.y-p2.y)^2)`, as a real number. -/
noncomputable def calcDistance (p q : Coords) : ℝ :=
  Real.sqrt (dist2 p q)

theorem dist2_nonneg (p q : Coords) : 0 ≤ dist2 p q := by
  have hx : (0:ℚ) ≤ (p.x - q.x) ^ 2 := sq_nonneg _
  have hy : (0:ℚ) ≤ (p.y - q.y) ^ 2 := sq_nonneg _
  unfold dist2; linarith

theorem dist2_comm (p q : Coords) : dist2 p q = dist2 q p := by
  unfold dist2; ring

theorem calcDistance_comm (p q : Coords) : calcDistance p q = calcDistance q p := by
  unfold calcDistance; rw [dist2_comm]

theorem calcDistance_nonneg (p q : Coords) : 0 ≤ calcDistance p q :=
  Real.sqrt_nonneg _

/-- Strict monotonicity bridge: comparing the source's real distances is the
same as comparing the modelled squared distances. -/
theorem calcDistance_lt_iff (p q r s : Coords) :
    calcDistance p q < calcDistance r s ↔ dist2 p q < dist2 r s := by
  unfold calcDistance
  rw [Real.sqrt_lt_sqrt_iff (by exact_mod_cast dist2_nonneg p q)]
  exact_mod_cast Iff.rfl

theorem calcDistance_le_iff (p q r s : Coords) :
    calcDistance p q ≤ calcDistance r s ↔ dist2 p q ≤ dist2 r s := by
  constructor
  · intro h
    by_contra hlt
    push_neg at hlt
    exact absurd ((calcDistance_lt_iff r s p q).mpr hlt) (not_lt.mpr h)
  · intro h
    rcases lt_or_eq_of_le h with h | h
    · exact le_of_lt ((calcDistance_lt_iff p q r s).mpr h)
    · unfold calcDistance; rw [h]

/-- Exact decision procedure for `√a + √b < √c + √d` over nonnegative
rationals; used to model the source's 2-opt test `d3 + d4 < d1 + d2`
on floating-point square roots. -/
def sqrtSumLt (a b c d : ℚ) : Bool :=
  let s := a + b - c - d
  let u := a * b
  let v := c * d
  if s < 0 ∧ 4 * u < s ^ 2 then true
  else
    let w := 4 * v - s ^ 2 - 4 * u
    if 0 ≤ s then decide (0 < w ∧ 16 * s ^ 2 * u < w ^ 2)
    else decide (0 < w ∨ w ^ 2 < 16 * s ^ 2 * u)

section SqrtSumLt

private theorem sq_lt_sq_iff_nonneg {x y : ℝ} (hx : 0 ≤ x) (hy : 0 ≤ y) :
    x ^ 2 < y ^ 2 ↔ x < y := by
  constructor
  · intro h; exact lt_of_pow_lt_pow_left₀ 2 hy h
  · intro h; exact pow_lt_pow_left₀ h hx (by norm_num)

private theorem nonneg_lt_iff {L w : ℝ} (hL : 0 ≤ L) :
    L < w ↔ 0 < w ∧ L ^ 2 < w ^ 2 := by
  constructor
  · intro h
    have hw : 0 < w := lt_of_le_of_lt hL h
    exact ⟨hw, (sq_lt_sq_iff_nonneg hL (le_of_lt hw)).mpr h⟩
  · rintro ⟨hw, h2⟩
    exact (sq_lt_sq_iff_nonneg hL (le_of_lt hw)).mp h2

private theorem nonpos_lt_iff {L w : ℝ} (hL : L ≤ 0) :
    L < w ↔ 0 < w ∨ w ^ 2 < L ^ 2 := by
  rcases lt_or_le 0 w with hw | hw
  · constructor
    · intro _; exact Or.inl hw
    · intro _; linarith
  · constructor
    · intro h
      right
      have h2 : -w < -L := by linarith
      have h3 := pow_lt_pow_left₀ h2 (by linarith : (0:ℝ) ≤ -w) (two_ne_zero)
      calc w ^ 2 = (-w) ^ 2 := by ring
        _ < (-L) ^ 2 := h3
        _ = L ^ 2 := by ring
    · rintro (h | h)
      · linarith
      · have h1 : (-w) ^ 2 < (-L) ^ 2 := by
          calc (-w) ^ 2 = w ^ 2 := by ring
            _ < L ^ 2 := h
            _ = (-L) ^ 2 := by ring
        have := lt_of_pow_lt_pow_left₀ 2 (by linarith : (0:ℝ) ≤ -L) h1
        linarith

private theorem addSqrt_neg_iff {s u : ℝ} (hu : 0 ≤ u) :
    s + 2 * Real.sqrt u < 0 ↔ (s < 0 ∧ 4 * u < s ^ 2) := by
  have ht : 0 ≤ Real.sqrt u := Real.sqrt_nonneg u
  have ht2 : Real.sqrt u ^ 2 = u := Real.sq_sqrt hu
  constructor
  · intro h
    have hs : s < 0 := by nlinarith
    refine ⟨hs, ?_⟩
    have h2 : 2 * Real.sqrt u < -s := by linarith
    have h3 := pow_lt_pow_left₀ h2 (by linarith : (0:ℝ) ≤ 2 * Real.sqrt u) (two_ne_zero)
    nlinarith
  · rintro ⟨hs, h4⟩
    have h1 : (2 * Real.sqrt u) ^ 2 < (-s) ^ 2 := by nlinarith
    have := lt_of_pow_lt_pow_left₀ 2 (by linarith : (0:ℝ) ≤ -s) h1
    linarith

private theorem reduce_to_w {s u v : ℝ} (hu : 0 ≤ u) (hv : 0 ≤ v)
    (hP : 0 ≤ s + 2 * Real.sqrt u) :
    (s + 2 * Real.sqrt u < 2 * Real.sqrt v) ↔
      4 * s * Real.sqrt u < 4 * v - s ^ 2 - 4 * u := by
  have hQ : 0 ≤ 2 * Real.sqrt v := by positivity
  rw [← sq_lt_sq_iff_nonneg hP hQ]
  have ht2 : Real.sqrt u ^ 2 = u := Real.sq_sqrt hu
  have hv2 : Real.sqrt v ^ 2 = v := Real.sq_sqrt hv
  constructor <;> intro h <;> nlinarith

private theorem sqrt_add_sq {a b : ℝ} (ha : 0 ≤ a) (hb : 0 ≤ b) :
    (Real.sqrt a + Real.sqrt b) ^ 2 = a + b + 2 * Real.sqrt (a * b) := by
  have h1 : Real.sqrt a ^ 2 = a := Real.sq_sqrt ha
  have h2 : Real.sqrt b ^ 2 = b := Real.sq_sqrt hb
  have h3 : Real.sqrt (a * b) = Real.sqrt a * Real.sqrt b := Real.sqrt_mul ha b
  rw [add_sq, h1, h2, h3]; ring

private theorem sqrtSum_lt_iff_aux {a b c d : ℝ} (ha : 0 ≤ a) (hb : 0 ≤ b)
    (hc : 0 ≤ c) (hd : 0 ≤ d) :
    (Real.sqrt a + Real.sqrt b < Real.sqrt c + Real.sqrt d) ↔
      (a + b - c - d) + 2 * Real.sqrt (a * b) < 2 * Real.sqrt (c * d) := by
  have hXnn : 0 ≤ Real.sqrt a + Real.sqrt b := by
    have := Real.sqrt_nonneg a; have := Real.sqrt_nonneg b; linarith
  have hYnn : 0 ≤ Real.sqrt c + Real.sqrt d := by
    have := Real.sqrt_nonneg c; have := Real.sqrt_nonneg d; linarith
  rw [← sq_lt_sq_iff_nonneg hXnn hYnn, sqrt_add_sq ha hb, sqrt_add_sq hc hd]
  constructor <;> intro h <;> linarith

/-- Correctness of `sqrtSumLt`: it decides the real inequality
`√a + √b < √c + √d` for nonnegative rational radicands. -/
theorem sqrtSumLt_iff {a b c d : ℚ} (ha : 0 ≤ a) (hb : 0 ≤ b) (hc : 0 ≤ c) (hd : 0 ≤ d) :
    sqrtSumLt a b c d = true ↔
      Real.sqrt (a : ℝ) + Real.sqrt (b : ℝ) <
        Real.sqrt (c : ℝ) + Real.sqrt (d : ℝ) := by
  have har : (0:ℝ) ≤ (a:ℝ) := by exact_mod_cast ha
  have hbr : (0:ℝ) ≤ (b:ℝ) := by exact_mod_cast hb
  have hcr : (0:ℝ) ≤ (c:ℝ) := by exact_mod_cast hc
  have hdr : (0:ℝ) ≤ (d:ℝ) := by exact_mod_cast hd
  have hunn : (0:ℝ) ≤ (a:ℝ) * (b:ℝ) := mul_nonneg har hbr
  have hvnn : (0:ℝ) ≤ (c:ℝ) * (d:ℝ) := mul_nonneg hcr hdr
  have hsu_nn : 0 ≤ Real.sqrt ((a:ℝ) * (b:ℝ)) := Real.sqrt_nonneg _
  have hsu_sq : Real.sqrt ((a:ℝ) * (b:ℝ)) ^ 2 = (a:ℝ) * (b:ℝ) := Real.sq_sqrt hunn
  rw [sqrtSum_lt_iff_aux har hbr hcr hdr]
  simp only [sqrtSumLt]
  split_ifs with h1 h2
  · -- branch 1: from `s < 0 ∧ 4u < s²` conclude `s + 2√u < 0 ≤ 2√v`
    have h1r : ((a:ℝ) + (b:ℝ) - (c:ℝ) - (d:ℝ)) < 0 ∧
        4 * ((a:ℝ) * (b:ℝ)) < ((a:ℝ) + (b:ℝ) - (c:ℝ) - (d:ℝ)) ^ 2 := by
      constructor
      · exact_mod_cast h1.1
      · exact_mod_cast h1.2
    have hneg := (addSqrt_neg_iff hunn).mpr h1r
    have hpos : (0:ℝ) ≤ 2 * Real.sqrt ((c:ℝ) * (d:ℝ)) := by positivity
    simp only [true_iff]
    linarith
  all_goals
    have hP : 0 ≤ ((a:ℝ) + (b:ℝ) - (c:ℝ) - (d:ℝ)) + 2 * Real.sqrt ((a:ℝ) * (b:ℝ)) := by
      by_contra hcon
      push_neg at hcon
      have := (addSqrt_neg_iff hunn).mp hcon
      exact h1 (by constructor
                   · exact_mod_cast this.1
                   · exact_mod_cast this.2)
  all_goals
    rw [decide_eq_true_eq, reduce_to_w hunn hvnn hP]
  all_goals
    have hL2 : (4 * ((a:ℝ) + (b:ℝ) - (c:ℝ) - (d:ℝ)) * Real.sqrt ((a:ℝ) * (b:ℝ))) ^ 2 =
        16 * ((a:ℝ) + (b:ℝ) - (c:ℝ) - (d:ℝ)) ^ 2 * ((a:ℝ) * (b:ℝ)) := by
      have h' : (4 * ((a:ℝ) + (b:ℝ) - (c:ℝ) - (d:ℝ)) * Real.sqrt ((a:ℝ) * (b:ℝ))) ^ 2 =
          16 * ((a:ℝ) + (b:ℝ) - (c:ℝ) - (d:ℝ)) ^ 2 * Real.sqrt ((a:ℝ) * (b:ℝ)) ^ 2 := by
        ring
      rw [h', hsu_sq]
  · -- branch 2: `0 ≤ s`
    have hs0r : (0:ℝ) ≤ ((a:ℝ) + (b:ℝ) - (c:ℝ) - (d:ℝ)) := by exact_mod_cast h2
    have hLnn : 0 ≤ 4 * ((a:ℝ) + (b:ℝ) - (c:ℝ) - (d:ℝ)) * Real.sqrt ((a:ℝ) * (b:ℝ)) := by
      positivity
    rw [nonneg_lt_iff hLnn, hL2]
    constructor
    · rintro ⟨x1, x2⟩
      constructor
      · exact_mod_cast x1
      · exact_mod_cast x2
    · rintro ⟨x1, x2⟩
      constructor
      · exact_mod_cast x1
      · exact_mod_cast x2
  · -- branch 3: `s < 0`
    have hs0r : ((a:ℝ) + (b:ℝ) - (c:ℝ) - (d:ℝ)) < 0 := by
      have h3 : a + b - c - d < 0 := lt_of_not_le h2
      exact_mod_cast h3
    have hLnp : 4 * ((a:ℝ) + (b:ℝ) - (c:ℝ) - (d:ℝ)) * Real.sqrt ((a:ℝ) * (b:ℝ)) ≤ 0 := by
      nlinarith
    rw [nonpos_lt_iff hLnp, hL2]
    constructor
    · rintro (x | x)
      · exact Or.inl (by exact_mod_cast x)
      · exact Or.inr (by exact_mod_cast x)
    · rintro (x | x)
      · exact Or.inl (by exact_mod_cast x)
      · exact Or.inr (by exact_mod_cast x)

end SqrtSumLt

/-! ### Generic list machinery shared by the embedded algorithms -/

section ListMachinery

variable {α : Type} {β : Type} {K : Type}

/-- Left fold tracking the (index, value) of the best candidate seen so far.
Models the source pattern
`forEach((t, idx) => { if (dist < minDist) { minDist = dist; bestIdx = idx } })`
running over the tail, the `minDist = Infinity` initialisation being modelled
by seeding the fold with the first candidate (which the source always accepts,
any finite value being `< Infinity`). -/
def fmAux (f : β → ℚ) : List β → ℕ → ℕ → ℚ → ℕ
  | [], _, bIdx, _ => bIdx
  | x :: xs, i, bIdx, bVal =>
    if f x < bVal then fmAux f xs (i + 1) i (f x)
    else fmAux f xs (i + 1) bIdx bVal

/-- Index of the first candidate minimising `f` under the source's
strict-`<`-update fold (`0` for the empty list). -/
def firstMinIdxBy (f : β → ℚ) : List β → ℕ
  | [] => 0
  | x :: xs => fmAux f xs 1 0 (f x)

/-- Spec-side formulation: the first index whose value is `≤` every value in
the list. -/
def specMinIdx (f : β → ℚ) (l : List β) : ℕ :=
  l.findIdx (fun x => decide (∀ y ∈ l, f x ≤ f y))

private theorem findIdx_congr {p q : β → Bool} :
    ∀ {l : List β}, (∀ x ∈ l, p x = q x) → l.findIdx p = l.findIdx q := by
  intro l
  induction l with
  | nil => intro _; rfl
  | cons x xs ih =>
    intro h
    rw [List.findIdx_cons, List.findIdx_cons, h x (by simp),
      ih (fun y hy => h y (by simp [hy]))]

private theorem fmAux_of_forall_le (f : β → ℚ) :
    ∀ (xs : List β) (i bIdx : ℕ) (bVal : ℚ), (∀ y ∈ xs, bVal ≤ f y) →
      fmAux f xs i bIdx bVal = bIdx := by
  intro xs
  induction xs with
  | nil => intro _ _ _ _; rfl
  | cons x rest ih =>
    intro i bIdx bVal h
    have hx : ¬ f x < bVal := not_lt.mpr (h x (by simp))
    simp only [fmAux, hx, if_false]
    exact ih _ _ _ (fun y hy => h y (by simp [hy]))

private theorem fmAux_of_exists_lt (f : β → ℚ) :
    ∀ (xs : List β) (i bIdx : ℕ) (bVal : ℚ), (∃ y ∈ xs, f y < bVal) →
      fmAux f xs i bIdx bVal =
        i + xs.findIdx (fun x => decide (f x < bVal ∧ ∀ y ∈ xs, f x ≤ f y)) := by
  intro xs
  induction xs with
  | nil =>
    rintro i bIdx bVal ⟨y, hy, -⟩
    exact absurd hy (List.not_mem_nil y)
  | cons x rest ih =>
    rintro i bIdx bVal hex
    by_cases hx : f x < bVal
    · simp only [fmAux, hx, if_true]
      by_cases hmin : ∀ y ∈ rest, f x ≤ f y
      · rw [fmAux_of_forall_le f rest _ _ _ hmin, List.findIdx_cons]
        have hp : (decide (f x < bVal ∧ ∀ y ∈ x :: rest, f x ≤ f y)) = true := by
          simp only [decide_eq_true_eq]
          exact ⟨hx, fun y hy => by
            rcases List.mem_cons.mp hy with h | h
            · rw [h]
            · exact hmin y h⟩
        rw [hp]
        simp
      · push_neg at hmin
        obtain ⟨y0, hy0, hy0lt⟩ := hmin
        rw [ih _ _ _ ⟨y0, hy0, hy0lt⟩, List.findIdx_cons]
        have hp : (decide (f x < bVal ∧ ∀ y ∈ x :: rest, f x ≤ f y)) = false := by
          simp only [decide_eq_false_iff_not, not_and, not_forall]
          intro _
          exact ⟨y0, by simp [hy0], not_le.mpr hy0lt⟩
        rw [hp]
        have hcongr : rest.findIdx (fun z => decide (f z < f x ∧ ∀ y ∈ rest, f z ≤ f y)) =
            rest.findIdx (fun z => decide (f z < bVal ∧ ∀ y ∈ x :: rest, f z ≤ f y)) := by
          apply findIdx_congr
          intro z _
          simp only [decide_eq_decide]
          constructor
          · rintro ⟨h1, h2⟩
            refine ⟨lt_trans h1 hx, fun y hy => ?_⟩
            rcases List.mem_cons.mp hy with h | h
            · rw [h]; exact le_of_lt h1
            · exact h2 y h
          · rintro ⟨h1, h2⟩
            have hzy0 : f z ≤ f y0 := h2 y0 (by simp [hy0])
            exact ⟨lt_of_le_of_lt hzy0 hy0lt, fun y hy => h2 y (by simp [hy])⟩
        rw [hcongr]
        simp only [cond_false]
        omega
    · simp only [fmAux, hx, if_false]
      have hex' : ∃ y ∈ rest, f y < bVal := by
        obtain ⟨y, hy, hylt⟩ := hex
        rcases List.mem_cons.mp hy with h | h
        · rw [h] at hylt; exact absurd hylt hx
        · exact ⟨y, h, hylt⟩
      rw [ih _ _ _ hex', List.findIdx_cons]
      have hp : (decide (f x < bVal ∧ ∀ y ∈ x :: rest, f x ≤ f y)) = false := by
        simp [hx]
      rw [hp]
      have hcongr : rest.findIdx (fun z => decide (f z < bVal ∧ ∀ y ∈ rest, f z ≤ f y)) =
          rest.findIdx (fun z => decide (f z < bVal ∧ ∀ y ∈ x :: rest, f z ≤ f y)) := by
        apply findIdx_congr
        intro z _
        simp only [decide_eq_decide]
        constructor
        · rintro ⟨h1, h2⟩
          refine ⟨h1, fun y hy => ?_⟩
          rcases List.mem_cons.mp hy with h | h
          · rw [h]; exact le_trans (le_of_lt h1) (not_lt.mp hx)
          · exact h2 y h
        · rintro ⟨h1, h2⟩
          exact ⟨h1, fun y hy => h2 y (by simp [hy])⟩
      rw [hcongr]
      simp only [cond_false]
      omega

/-- The source's strict-update fold finds the first index achieving the
minimum. -/
theorem firstMinIdxBy_eq_specMinIdx (f : β → ℚ) (l : List β) (h : l ≠ []) :
    firstMinIdxBy f l = specMinIdx f l := by
  match l, h with
  | x :: xs, _ =>
    show fmAux f xs 1 0 (f x) = _
    unfold specMinIdx
    by_cases hmin : ∀ y ∈ xs, f x ≤ f y
    · rw [fmAux_of_forall_le f xs _ _ _ hmin, List.findIdx_cons]
      have hp : (decide (∀ y ∈ x :: xs, f x ≤ f y)) = true := by
        simp only [decide_eq_true_eq]
        intro y hy
        rcases List.mem_cons.mp hy with h | h
        · rw [h]
        · exact hmin y h
      rw [hp]
      simp
    · push_neg at hmin
      obtain ⟨y0, hy0, hy0lt⟩ := hmin
      rw [fmAux_of_exists_lt f xs _ _ _ ⟨y0, hy0, hy0lt⟩, List.findIdx_cons]
      have hp : (decide (∀ y ∈ x :: xs, f x ≤ f y)) = false := by
        simp only [decide_eq_false_iff_not, not_forall]
        exact ⟨y0, by simp [hy0], not_le.mpr hy0lt⟩
      rw [hp]
      have hcongr : xs.findIdx (fun z => decide (f z < f x ∧ ∀ y ∈ xs, f z ≤ f y)) =
          xs.findIdx (fun z => decide (∀ y ∈ x :: xs, f z ≤ f y)) := by
        apply findIdx_congr
        intro z _
        simp only [decide_eq_decide]
        constructor
        · rintro ⟨h1, h2⟩
          intro y hy
          rcases List.mem_cons.mp hy with h | h
          · rw [h]; exact le_of_lt h1
          · exact h2 y h
        · intro h2
          have hzy0 : f z ≤ f y0 := h2 y0 (by simp [hy0])
          exact ⟨lt_of_le_of_lt hzy0 hy0lt, fun y hy => h2 y (by simp [hy])⟩
      rw [hcongr]
      simp only [cond_false]
      omega

private theorem exists_min_val (f : β → ℚ) :
    ∀ (l : List β), l ≠ [] → ∃ x ∈ l, ∀ y ∈ l, f x ≤ f y := by
  intro l
  induction l with
  | nil => intro h; exact absurd rfl h
  | cons x xs ih =>
    intro _
    rcases eq_or_ne xs [] with hxs | hxs
    · subst hxs
      exact ⟨x, by simp, by simp⟩
    · obtain ⟨m, hm, hmin⟩ := ih hxs
      rcases le_total (f x) (f m) with h | h
      · refine ⟨x, by simp, fun y hy => ?_⟩
        rcases List.mem_cons.mp hy with h' | h'
        · rw [h']
        · exact le_trans h (hmin y h')
      · refine ⟨m, by simp [hm], fun y hy => ?_⟩
        rcases List.mem_cons.mp hy with h' | h'
        · rw [h']; exact h
        · exact hmin y h'

/-- Characterisation of `specMinIdx` on a nonempty list: it is a valid index,
its value is a minimum, and every earlier index has a strictly larger value
(first-occurrence tie-breaking). -/
theorem specMinIdx_spec (f : β → ℚ) (l : List β) (h : l ≠ []) (d₀ : β) :
    specMinIdx f l < l.length ∧
      (∀ j, j < l.length → f (l.getD (specMinIdx f l) d₀) ≤ f (l.getD j d₀)) ∧
      (∀ j, j < specMinIdx f l → f (l.getD (specMinIdx f l) d₀) < f (l.getD j d₀)) := by
  obtain ⟨m, hm, hmin⟩ := exists_min_val f l h
  have hlt : specMinIdx f l < l.length := by
    unfold specMinIdx
    rw [List.findIdx_lt_length]
    exact ⟨m, hm, by simp only [decide_eq_true_eq]; exact hmin⟩
  have hlt' : l.findIdx (fun x => decide (∀ y ∈ l, f x ≤ f y)) < l.length := hlt
  refine ⟨hlt, ?_, ?_⟩
  · intro j hj
    have hp := List.findIdx_getElem (w := hlt')
    simp only [decide_eq_true_eq] at hp
    rw [List.getD_eq_getElem l d₀ hlt, List.getD_eq_getElem l d₀ hj]
    exact hp _ (List.getElem_mem hj)
  · intro j hj
    have hjlen : j < l.length := lt_trans hj hlt
    have hp := List.findIdx_getElem (w := hlt')
    simp only [decide_eq_true_eq] at hp
    have hnp := List.not_of_lt_findIdx (p := fun x => decide (∀ y ∈ l, f x ≤ f y)) hj
    simp only [decide_eq_false_iff_not] at hnp
    push_neg at hnp
    obtain ⟨y, hy, hylt⟩ := hnp
    rw [List.getD_eq_getElem l d₀ hlt, List.getD_eq_getElem l d₀ hjlen]
    exact lt_of_le_of_lt (hp y hy) hylt

/-- The source pattern
`mapIds.reduce((maxId, id) => g(id) > g(maxId) ? id : maxId, init)`:
a left fold keeping the first element with the strictly largest key. -/
def reduceMax (g : β → ℕ) (init : β) (l : List β) : β :=
  l.foldl (fun mx x => if g x > g mx then x else mx) init

/-- Spec-side formulation: the first element whose key is `≥` every key. -/
def specFirstMax (g : β → ℕ) (l : List β) (d₀ : β) : β :=
  (l.find? (fun x => decide (∀ y ∈ l, g y ≤ g x))).getD d₀

private theorem find?_congr {p q : β → Bool} :
    ∀ {l : List β}, (∀ x ∈ l, p x = q x) → l.find? p = l.find? q := by
  intro l
  induction l with
  | nil => intro _; rfl
  | cons x xs ih =>
    intro h
    rw [List.find?_cons, List.find?_cons, h x (by simp),
      ih (fun y hy => h y (by simp [hy]))]

private theorem reduceMax_of_forall_le (g : β → ℕ) :
    ∀ (xs : List β) (b : β), (∀ y ∈ xs, g y ≤ g b) → reduceMax g b xs = b := by
  intro xs
  induction xs with
  | nil => intro _ _; rfl
  | cons x rest ih =>
    intro b h
    have hx : ¬ g x > g b := not_lt.mpr (h x (by simp))
    simp only [reduceMax, List.foldl_cons, hx, if_false]
    exact ih b (fun y hy => h y (by simp [hy]))

private theorem reduceMax_of_exists_gt (g : β → ℕ) :
    ∀ (xs : List β) (b : β), (∃ y ∈ xs, g b < g y) →
      ∃ z, xs.find? (fun x => decide (g b < g x ∧ ∀ y ∈ xs, g y ≤ g x)) = some z ∧
        reduceMax g b xs = z := by
  intro xs
  induction xs with
  | nil =>
    rintro b ⟨y, hy, -⟩
    exact absurd hy (List.not_mem_nil y)
  | cons x rest ih =>
    rintro b hex
    have hred : reduceMax g b (x :: rest) =
        reduceMax g (if g x > g b then x else b) rest := by
      simp only [reduceMax, List.foldl_cons]
    by_cases hx : g b < g x
    · rw [hred, if_pos hx]
      by_cases hmax : ∀ y ∈ rest, g y ≤ g x
      · refine ⟨x, ?_, reduceMax_of_forall_le g rest x hmax⟩
        rw [List.find?_cons]
        have hp : (decide (g b < g x ∧ ∀ y ∈ x :: rest, g y ≤ g x)) = true := by
          simp only [decide_eq_true_eq]
          exact ⟨hx, fun y hy => by
            rcases List.mem_cons.mp hy with h | h
            · rw [h]
            · exact hmax y h⟩
        rw [hp]
      · push_neg at hmax
        obtain ⟨y0, hy0, hy0gt⟩ := hmax
        obtain ⟨z, hfind, hrun⟩ := ih x ⟨y0, hy0, hy0gt⟩
        refine ⟨z, ?_, hrun⟩
        rw [List.find?_cons]
        have hp : (decide (g b < g x ∧ ∀ y ∈ x :: rest, g y ≤ g x)) = false := by
          simp only [decide_eq_false_iff_not, not_and, not_forall]
          intro _
          exact ⟨y0, by simp [hy0], not_le.mpr hy0gt⟩
        rw [hp]
        show rest.find? (fun z => decide (g b < g z ∧ ∀ y ∈ x :: rest, g y ≤ g z)) = some z
        rw [← hfind]
        apply find?_congr
        intro z' _
        simp only [decide_eq_decide]
        constructor
        · rintro ⟨h1, h2⟩
          have hy0z : g y0 ≤ g z' := h2 y0 (by simp [hy0])
          exact ⟨lt_of_lt_of_le hy0gt hy0z, fun y hy => h2 y (by simp [hy])⟩
        · rintro ⟨h1, h2⟩
          refine ⟨lt_trans hx h1, fun y hy => ?_⟩
          rcases List.mem_cons.mp hy with h | h
          · rw [h]; exact le_of_lt h1
          · exact h2 y h
    · rw [hred, if_neg (by omega)]
      have hex' : ∃ y ∈ rest, g b < g y := by
        obtain ⟨y, hy, hygt⟩ := hex
        rcases List.mem_cons.mp hy with h | h
        · rw [h] at hygt; exact absurd hygt hx
        · exact ⟨y, h, hygt⟩
      obtain ⟨z, hfind, hrun⟩ := ih b hex'
      refine ⟨z, ?_, hrun⟩
      rw [List.find?_cons]
      have hp : (decide (g b < g x ∧ ∀ y ∈ x :: rest, g y ≤ g x)) = false := by
        simp [hx]
      rw [hp]
      show rest.find? (fun z => decide (g b < g z ∧ ∀ y ∈ x :: rest, g y ≤ g z)) = some z
      rw [← hfind]
      apply find?_congr
      intro z' _
      simp only [decide_eq_decide]
      constructor
      · rintro ⟨h1, h2⟩
        exact ⟨h1, fun y hy => h2 y (by simp [hy])⟩
      · rintro ⟨h1, h2⟩
        refine ⟨h1, fun y hy => ?_⟩
        rcases List.mem_cons.mp hy with h | h
        · rw [h]; exact le_trans (not_lt.mp hx) (le_of_lt h1)
        · exact h2 y h

/-- The source's `reduce` with the head as seed finds the first element of
the list achieving the maximal key. -/
theorem reduceMax_head_eq_specFirstMax (g : β → ℕ) (x : β) (xs : List β) :
    reduceMax g x (x :: xs) = specFirstMax g (x :: xs) x := by
  have hstep : reduceMax g x (x :: xs) = reduceMax g x xs := by
    simp [reduceMax]
  rw [hstep]
  unfold specFirstMax
  by_cases hmax : ∀ y ∈ xs, g y ≤ g x
  · rw [reduceMax_of_forall_le g xs x hmax, List.find?_cons]
    have hp : (decide (∀ y ∈ x :: xs, g y ≤ g x)) = true := by
      simp only [decide_eq_true_eq]
      intro y hy
      rcases List.mem_cons.mp hy with h | h
      · rw [h]
      · exact hmax y h
    rw [hp]
    rfl
  · push_neg at hmax
    obtain ⟨y0, hy0, hy0gt⟩ := hmax
    obtain ⟨z, hfind, hrun⟩ := reduceMax_of_exists_gt g xs x ⟨y0, hy0, hy0gt⟩
    rw [hrun, List.find?_cons]
    have hp : (decide (∀ y ∈ x :: xs, g y ≤ g x)) = false := by
      simp only [decide_eq_false_iff_not, not_forall]
      exact ⟨y0, by simp [hy0], not_le.mpr hy0gt⟩
    rw [hp]
    have hcongr : xs.find? (fun z => decide (∀ y ∈ x :: xs, g y ≤ g z)) =
        xs.find? (fun z => decide (g x < g z ∧ ∀ y ∈ xs, g y ≤ g z)) := by
      apply find?_congr
      intro z' _
      simp only [decide_eq_decide]
      constructor
      · intro h2
        have hy0z : g y0 ≤ g z' := h2 y0 (by simp [hy0])
        exact ⟨lt_of_lt_of_le hy0gt hy0z, fun y hy => h2 y (by simp [hy])⟩
      · rintro ⟨h1, h2⟩
        intro y hy
        rcases List.mem_cons.mp hy with h | h
        · rw [h]; exact le_of_lt h1
        · exact h2 y h
    have hval : (xs.find? (fun z => decide (∀ y ∈ x :: xs, g y ≤ g z))).getD x = z := by
      rw [hcongr, hfind]
      rfl
    exact hval.symm

/-- First-occurrence deduplication, the key order of a JavaScript object
keyed by strings (insertion order). -/
def firstDedupAux [DecidableEq β] (seen : List β) : List β → List β
  | [] => []
  | x :: xs =>
    if x ∈ seen then firstDedupAux seen xs
    else x :: firstDedupAux (x :: seen) xs

def firstDedup [DecidableEq β] (l : List β) : List β :=
  firstDedupAux [] l

theorem mem_firstDedupAux [DecidableEq β] :
    ∀ (l : List β) (seen : List β) (a : β),
      a ∈ firstDedupAux seen l ↔ a ∈ l ∧ a ∉ seen := by
  intro l
  induction l with
  | nil => intro seen a; simp [firstDedupAux]
  | cons x xs ih =>
    intro seen a
    by_cases hx : x ∈ seen
    · simp only [firstDedupAux, hx, if_true, ih]
      constructor
      · rintro ⟨h1, h2⟩
        exact ⟨by simp [h1], h2⟩
      · rintro ⟨h1, h2⟩
        rcases List.mem_cons.mp h1 with h | h
        · subst h; exact absurd hx h2
        · exact ⟨h, h2⟩
    · simp only [firstDedupAux, hx, if_false, List.mem_cons, ih]
      constructor
      · rintro (h | ⟨h1, h2⟩)
        · subst h; exact ⟨by simp, hx⟩
        · refine ⟨by simp [h1], fun hc => h2 (by simp [hc])⟩
      · rintro ⟨h1, h2⟩
        by_cases hax : a = x
        · exact Or.inl hax
        · have h : a ∈ xs := by
            rcases h1 with h | h
            · exact absurd h hax
            · exact h
          refine Or.inr ⟨h, fun hc => ?_⟩
          rcases hc with h' | h'
          · exact hax h'
          · exact h2 h'

theorem nodup_firstDedupAux [DecidableEq β] :
    ∀ (l : List β) (seen : List β), (firstDedupAux seen l).Nodup := by
  intro l
  induction l with
  | nil => intro seen; simp [firstDedupAux]
  | cons x xs ih =>
    intro seen
    by_cases hx : x ∈ seen
    · simp only [firstDedupAux, hx, if_true]
      exact ih seen
    · simp only [firstDedupAux, hx, if_false]
      refine List.nodup_cons.mpr ⟨?_, ih (x :: seen)⟩
      intro hc
      exact ((mem_firstDedupAux xs (x :: seen) x).mp hc).2 (by simp)

theorem mem_firstDedup [DecidableEq β] (l : List β) (a : β) :
    a ∈ firstDedup l ↔ a ∈ l := by
  unfold firstDedup
  rw [mem_firstDedupAux]
  simp

theorem nodup_firstDedup [DecidableEq β] (l : List β) : (firstDedup l).Nodup :=
  nodup_firstDedupAux l []

/-- The source's selection loop
`while (remaining.length > 0) { current = remaining.splice(currentIdx, 1)[0];
result.push(current); currentIdx = next(current, remaining) }`,
with fuel equal to the list length (the loop removes one element per
iteration, so the fuel is never exhausted on the reachable calls).  The
`min idx xs.length` clamp makes the removal total; the selection functions
used by the source always produce an in-range index. -/
def spliceRun (next : α → List α → ℕ) : ℕ → List α → ℕ → List α
  | 0, _, _ => []
  | _ + 1, [], _ => []
  | fuel + 1, x :: xs, idx =>
    let i := min idx xs.length
    let cur := (x :: xs).getD i x
    let rest := (x :: xs).eraseIdx i
    cur :: spliceRun next fuel rest (next cur rest)

/-- Removing the element at a valid index and re-consing it is a
permutation. -/
theorem getD_cons_eraseIdx_perm (l : List α) (i : ℕ) (h : i < l.length) (d : α) :
    (l.getD i d :: l.eraseIdx i).Perm l := by
  rw [List.getD_eq_getElem l d h, List.eraseIdx_eq_take_drop_succ]
  have h2 : List.take i l ++ l[i] :: List.drop (i + 1) l = l := by
    rw [List.getElem_cons_drop, List.take_append_drop]
  have h1 : (l[i] :: (List.take i l ++ List.drop (i + 1) l)).Perm
      (List.take i l ++ l[i] :: List.drop (i + 1) l) := List.perm_middle.symm
  rw [h2] at h1
  exact h1

theorem spliceRun_perm (next : α → List α → ℕ) :
    ∀ (fuel : ℕ) (l : List α) (idx : ℕ), l.length ≤ fuel →
      (spliceRun next fuel l idx).Perm l := by
  intro fuel
  induction fuel with
  | zero =>
    intro l idx h
    have : l = [] := List.length_eq_zero.mp (Nat.le_zero.mp h)
    subst this
    exact List.Perm.refl _
  | succ n ih =>
    intro l idx h
    match l with
    | [] => exact List.Perm.refl _
    | x :: xs =>
      have hi : min idx xs.length < (x :: xs).length := by
        simp only [List.length_cons]
        omega
      have hlen : ((x :: xs).eraseIdx (min idx xs.length)).length ≤ n := by
        rw [List.length_eraseIdx_of_lt hi]
        simp only [List.length_cons] at h ⊢
        omega
      have hperm : ((x :: xs).getD (min idx xs.length) x ::
          (x :: xs).eraseIdx (min idx xs.length)).Perm (x :: xs) :=
        getD_cons_eraseIdx_perm _ _ hi x
      have hrec := ih ((x :: xs).eraseIdx (min idx xs.length))
        (next ((x :: xs).getD (min idx xs.length) x)
          ((x :: xs).eraseIdx (min idx xs.length))) hlen
      exact (List.Perm.cons _ hrec).trans hperm

/-- Invariant preservation along a left fold. -/
theorem foldl_invariant {σ : Type} (f : σ → β → σ) (P : σ → Prop) :
    ∀ (l : List β) (s : σ), P s → (∀ s x, x ∈ l → P s → P (f s x)) →
      P (l.foldl f s) := by
  intro l
  induction l with
  | nil => intro s hs _; exact hs
  | cons x xs ih =>
    intro s hs hstep
    exact ih (f s x) (hstep s x (by simp) hs)
      (fun s' y hy hP => hstep s' y (by simp [hy]) hP)

private theorem flatMap_congr {f g : K → List α} :
    ∀ {l : List K}, (∀ k ∈ l, f k = g k) → l.flatMap f = l.flatMap g := by
  intro l
  induction l with
  | nil => intro _; rfl
  | cons x xs ih =>
    intro h
    rw [List.flatMap_cons, List.flatMap_cons, h x (by simp),
      ih (fun y hy => h y (by simp [hy]))]

/-- Partition-by-key: concatenating the per-key buckets over a duplicate-free
list of keys covering a list is a permutation of the list. -/
theorem flatMap_filter_perm [DecidableEq K] (key : α → K) :
    ∀ (keys : List K) (l : List α), keys.Nodup → (∀ x ∈ l, key x ∈ keys) →
      (keys.flatMap (fun k => l.filter (fun x => decide (key x = k)))).Perm l := by
  intro keys
  induction keys with
  | nil =>
    intro l _ hcover
    match l with
    | [] => exact List.Perm.refl _
    | x :: xs => exact absurd (hcover x (by simp)) (List.not_mem_nil _)
  | cons k ks ih =>
    intro l hnd hcover
    rw [List.flatMap_cons]
    have hk_not : k ∉ ks := (List.nodup_cons.mp hnd).1
    have hnd' : ks.Nodup := (List.nodup_cons.mp hnd).2
    have hbucket : ∀ k' ∈ ks,
        l.filter (fun x => decide (key x = k')) =
          (l.filter (fun x => !decide (key x = k))).filter
            (fun x => decide (key x = k')) := by
      intro k' hk'
      rw [List.filter_filter]
      apply List.filter_congr
      intro x _
      by_cases hx : key x = k'
      · have hk'k : k' ≠ k := fun hcon => hk_not (hcon ▸ hk')
        have hxk : ¬ key x = k := by rw [hx]; exact hk'k
        simp only [hx, hxk, decide_not]
        simp [hk'k]
      · simp [hx]
    have hflat : ks.flatMap (fun k' => l.filter (fun x => decide (key x = k'))) =
        ks.flatMap (fun k' => (l.filter (fun x => !decide (key x = k))).filter
          (fun x => decide (key x = k'))) :=
      flatMap_congr hbucket
    rw [hflat]
    have hcover' : ∀ x ∈ l.filter (fun x => !decide (key x = k)), key x ∈ ks := by
      intro x hx
      have hmem := List.mem_of_mem_filter hx
      have hprop := List.of_mem_filter hx
      simp only [Bool.not_eq_true', decide_eq_false_iff_not] at hprop
      rcases List.mem_cons.mp (hcover x hmem) with h | h
      · exact absurd h hprop
      · exact h
    have hperm := ih (l.filter (fun x => !decide (key x = k))) hnd' hcover'
    exact (List.Perm.append_left _ hperm).trans (List.filter_append_perm _ l)

end ListMachinery

/-! ### The embedded engine, variant `src/js/route-optimizer.js` (region-aware)
    and variant `src/unnamed/part_000` (centroid-greedy).
    Functions identical in the two files are defined once. -/

/-- The static region table `MAP_REGION_GROUPS`, entries in source order. -/
def MAP_REGION_GROUPS : List (String × List ℕ) :=
  [("gyr_abania", [367, 368, 369]),
   ("othard", [371, 354, 372]),
   ("ishgard", [211, 212, 213, 214, 215]),
   ("norvrandt", [491, 492, 493, 494, 495, 496]),
   ("ew_north", [695, 696]),
   ("ew_endgame", [698, 699, 700]),
   ("dt_tural", [857, 858, 859]),
   ("dt_solution", [860, 861, 862])]

/-- `getMapRegion`: the first region whose id list contains the map id,
`none` otherwise. -/
def getMapRegion (mapId : ℕ) : Option String :=
  (MAP_REGION_GROUPS.find? (fun p => decide (mapId ∈ p.2))).map Prod.fst

/-- The bucket of one map in `groupByMap`'s result: the waypoints of that
map, preserving input order. -/
def mapBucket (ts : List Waypoint) (m : ℕ) : List Waypoint :=
  ts.filter (fun t => decide (t.mapId = m))

/-- `Object.keys` of `groupByMap`'s result: the distinct map ids in ascending
numeric order (the iteration order JavaScript guarantees for integer-like
object keys). -/
def mapKeys (ts : List Waypoint) : List ℕ :=
  List.insertionSort (· ≤ ·) (firstDedup (ts.map Waypoint.mapId))

/-- `groupByMap`, modelled as the ordered key/bucket association list of the
JavaScript object it builds. -/
def groupByMap (ts : List Waypoint) : List (ℕ × List Waypoint) :=
  (mapKeys ts).map (fun m => (m, mapBucket ts m))

/-- `mapGroups[m]` on the association-list model (`[]` for an absent key,
which the source never accesses). -/
def lookupBucket {α : Type} (groups : List (ℕ × List α)) (m : ℕ) : List α :=
  ((groups.find? (fun p => decide (p.1 = m))).map Prod.snd).getD []

/-- Index of the waypoint of `l` nearest to `c`: the source's fold with
strict `<` update starting from `minDist = Infinity`, the comparisons taken
on squared distances (see `calcDistance_lt_iff`). -/
def nearestIdxTo (c : Coords) (l : List Waypoint) : ℕ :=
  firstMinIdxBy (fun t => dist2 c t.coords) l

/-- `sortWithinMap`: greedy nearest-neighbour ordering of one map's
waypoints, optionally anchored at `startCoords`. -/
def sortWithinMap (treasures : List Waypoint) (startCoords : Option Coords) :
    List Waypoint :=
  if treasures.length ≤ 1 then treasures
  else
    let currentIdx :=
      match startCoords with
      | none => 0
      | some c => nearestIdxTo c treasures
    spliceRun (fun cur rest => nearestIdxTo cur.coords rest)
      treasures.length treasures currentIdx

section MapOrdering

variable {α : Type}

/-- `mapGroups[m].length`. -/
def mapCount (groups : List (ℕ × List α)) (m : ℕ) : ℕ :=
  (lookupBucket groups m).length

/-- JavaScript truthiness of the optional numeric `startMapId`
(`0` is falsy, like `null`). -/
def startTruthy : Option ℕ → Bool
  | none => false
  | some m => decide (m ≠ 0)

/-- `const startRegion = startMapId ? getMapRegion(startMapId) : null`. -/
def startRegionOf (startMapId : Option ℕ) : Option String :=
  if startTruthy startMapId then getMapRegion (startMapId.getD 0) else none

/-- The total preorder realised by the source's sort comparators
`(a, b) => { if (start) { if (a === start) return -1; if (b === start)
return 1; } return cnt(b) - cnt(a); }`: the distinguished element first,
then descending count.  `Array.prototype.sort` is stable and, for this
consistent comparator, sorts with respect to exactly this preorder, so the
stable `List.insertionSort` models it. -/
def startLe {β : Type} [DecidableEq β] (start : Option β) (cnt : β → ℕ)
    (a b : β) : Prop :=
  match start with
  | some s => a = s ∨ (¬ b = s ∧ cnt b ≤ cnt a)
  | none => cnt b ≤ cnt a

instance {β : Type} [DecidableEq β] (start : Option β) (cnt : β → ℕ) :
    DecidableRel (startLe start cnt) := by
  intro a b
  cases start with
  | none => exact (inferInstance : Decidable (cnt b ≤ cnt a))
  | some s => exact (inferInstance : Decidable (a = s ∨ (¬ b = s ∧ cnt b ≤ cnt a)))

instance {β : Type} [DecidableEq β] (start : Option β) (cnt : β → ℕ) :
    IsTotal β (startLe start cnt) := by
  constructor
  intro a b
  cases start with
  | none => exact Nat.le_total (cnt b) (cnt a)
  | some s =>
    show (a = s ∨ (¬ b = s ∧ cnt b ≤ cnt a)) ∨ (b = s ∨ (¬ a = s ∧ cnt a ≤ cnt b))
    by_cases ha : a = s
    · exact Or.inl (Or.inl ha)
    · by_cases hb : b = s
      · exact Or.inr (Or.inl hb)
      · rcases Nat.le_total (cnt b) (cnt a) with h | h
        · exact Or.inl (Or.inr ⟨hb, h⟩)
        · exact Or.inr (Or.inr ⟨ha, h⟩)

instance {β : Type} [DecidableEq β] (start : Option β) (cnt : β → ℕ) :
    IsTrans β (startLe start cnt) := by
  constructor
  intro a b c hab hbc
  cases start with
  | none => exact Nat.le_trans hbc hab
  | some s =>
    rcases hab with ha | ⟨hb, hba⟩
    · exact Or.inl ha
    · rcases hbc with hb' | ⟨hc, hcb⟩
      · exact absurd hb' hb
      · exact Or.inr ⟨hc, Nat.le_trans hcb hba⟩

/-- Region keys present among the given maps, in first-encounter order
(the insertion order of the string-keyed `regionGroups` object). -/
def regionKeysOf (mapIds : List ℕ) : List String :=
  firstDedup (mapIds.filterMap getMapRegion)

/-- `regionGroups[r]`: the maps of region `r`, in `mapIds` order. -/
def regionMapsOf (mapIds : List ℕ) (r : String) : List ℕ :=
  mapIds.filter (fun m => decide (getMapRegion m = some r))

/-- `ungroupedMaps`: the maps with no region, in `mapIds` order. -/
def ungroupedOf (mapIds : List ℕ) : List ℕ :=
  mapIds.filter (fun m => decide (getMapRegion m = none))

/-- `regionTreasureCounts[r]`: total waypoint count of a region. -/
def regionCnt (groups : List (ℕ × List α)) (mapIds : List ℕ) (r : String) : ℕ :=
  ((regionMapsOf mapIds r).map (mapCount groups)).sum

/-- `sortedRegions`: region keys sorted with the start region (when any)
first, then by descending total waypoint count. -/
def sortedRegionKeys (groups : List (ℕ × List α)) (mapIds : List ℕ)
    (startMapId : Option ℕ) : List String :=
  List.insertionSort (startLe (startRegionOf startMapId) (regionCnt groups mapIds))
    (regionKeysOf mapIds)

/-- One region's maps after the in-place sort: the start map first when this
region is the start region, then descending per-map count. -/
def sortedRegionMaps (groups : List (ℕ × List α)) (mapIds : List ℕ)
    (startMapId : Option ℕ) (r : String) : List ℕ :=
  let s : Option ℕ :=
    if startTruthy startMapId ∧ startRegionOf startMapId = some r
    then startMapId else none
  List.insertionSort (startLe s (mapCount groups)) (regionMapsOf mapIds r)

/-- The ungrouped maps after their sort: the start map first when it is
ungrouped (start resolves to no region), then descending count. -/
def sortedUngrouped (groups : List (ℕ × List α)) (mapIds : List ℕ)
    (startMapId : Option ℕ) : List ℕ :=
  let s : Option ℕ :=
    if startTruthy startMapId ∧ startRegionOf startMapId = none
    then startMapId else none
  List.insertionSort (startLe s (mapCount groups)) (ungroupedOf mapIds)

/-- `sortMaps` of `src/js/route-optimizer.js` (region-aware policy). -/
def sortMaps (groups : List (ℕ × List α)) (startMapId : Option ℕ) : List ℕ :=
  let mapIds := groups.map Prod.fst
  if mapIds.length ≤ 1 then mapIds
  else
    let regs := (sortedRegionKeys groups mapIds startMapId).flatMap
      (sortedRegionMaps groups mapIds startMapId)
    let ung := sortedUngrouped groups mapIds startMapId
    if startTruthy startMapId ∧ startRegionOf startMapId = none ∧
        (startMapId.getD 0) ∈ ungroupedOf mapIds
    then ung ++ regs
    else regs ++ ung

end MapOrdering

/-- `calcCenter`: the coordinate sums are accumulated with a `reduce` from
`{x: 0, y: 0}` and divided by the length; `(20, 20)` for an empty bucket. -/
def calcCenter (treasures : List Waypoint) : Coords :=
  if treasures.length = 0 then ⟨20, 20⟩
  else
    let sum := treasures.foldl
      (fun (acc : Coords) t => ⟨acc.x + t.coords.x, acc.y + t.coords.y⟩) ⟨0, 0⟩
    ⟨sum.x / (treasures.length : ℚ), sum.y / (treasures.length : ℚ)⟩

/-- `sortMaps` of `src/unnamed/part_000` (centroid-greedy policy): start at
the map with the most waypoints (first wins ties), then repeatedly hop to
the unvisited map with the nearest centroid. -/
def sortMapsB (groups : List (ℕ × List Waypoint)) : List ℕ :=
  let mapIds := groups.map Prod.fst
  if mapIds.length ≤ 1 then mapIds
  else
    let startId := reduceMax (mapCount groups) (mapIds.getD 0 0) mapIds
    let startIdx := mapIds.findIdx (fun m => decide (m = startId))
    (spliceRun
      (fun cur rest =>
        firstMinIdxBy (fun p => dist2 (calcCenter cur.2) (calcCenter p.2)) rest)
      groups.length groups startIdx).map Prod.fst

/-- The sub-segment reversal of the 2-opt move:
`[...route.slice(0, i+1), ...reverse(route.slice(i+1, k+1)), ...route.slice(k+1)]`. -/
def segReverse {α : Type} (route : List α) (i k : ℕ) : List α :=
  route.take (i + 1) ++ ((route.drop (i + 1)).take (k - i)).reverse ++
    route.drop (k + 1)

/-- The 2-opt acceptance test `d3 + d4 < d1 + d2` of the source (`d1..d4` are
the four `calcDistance` values, with the `(k+1) % n` wrap), decided exactly
on the squared distances via `sqrtSumLt` (see `sqrtSumLt_iff`). -/
def accept2opt (route : List Waypoint) (i k : ℕ) : Bool :=
  let n := route.length
  let d1 := dist2 (route.getD i default).coords (route.getD (i + 1) default).coords
  let d2 := dist2 (route.getD k default).coords (route.getD ((k + 1) % n) default).coords
  let d3 := dist2 (route.getD i default).coords (route.getD k default).coords
  let d4 := dist2 (route.getD (i + 1) default).coords (route.getD ((k + 1) % n) default).coords
  sqrtSumLt d3 d4 d1 d2

/-- One full `for i / for k` pass of `improve2Opt` (first-improvement,
continuing the scan on the mutated route); returns the updated route and the
`improved` flag.  The loop bounds use the route length, which every swap
preserves. -/
def twoOptPass {α : Type} (accept : List α → ℕ → ℕ → Bool) (route : List α) :
    List α × Bool :=
  let n := route.length
  (List.range (n - 2)).foldl
    (fun st i =>
      ((List.range (n - (i + 2))).map (fun j => j + (i + 2))).foldl
        (fun st' k =>
          if accept st'.1 i k then (segReverse st'.1 i k, true) else st')
        st)
    (route, false)

/-- The `while (improved && iteration < maxIterations)` loop. -/
def twoOptLoop {α : Type} (accept : List α → ℕ → ℕ → Bool) :
    ℕ → List α → List α
  | 0, route => route
  | fuel + 1, route =>
    let st := twoOptPass accept route
    if st.2 then twoOptLoop accept fuel st.1 else st.1

/-- `improve2Opt` with an explicit iteration budget. -/
def improve2OptWith {α : Type} (accept : List α → ℕ → ℕ → Bool)
    (maxIterations : ℕ) (treasures : List α) : List α :=
  if treasures.length ≤ 3 then treasures
  else twoOptLoop accept maxIterations treasures

/-- `improve2Opt` at its default budget `maxIterations = 50` (the only call
inside `optimize` uses the default). -/
def improve2Opt (treasures : List Waypoint) : List Waypoint :=
  improve2OptWith accept2opt 50 treasures

/-- `calcTotalDistance`: sum of `calcDistance` over consecutive pairs (open
path — the loop never wraps), `0` for length `≤ 1`. -/
noncomputable def calcTotalDistance : List Waypoint → ℝ
  | [] => 0
  | [_] => 0
  | a :: b :: rest => calcDistance a.coords b.coords + calcTotalDistance (b :: rest)

/-- Closed-tour length: the open path plus the edge from the last waypoint
back to the first — the quantity the source's wrap-around 2-opt test is
consistent with. -/
noncomputable def cyclicDistance : List Waypoint → ℝ
  | [] => 0
  | a :: rest =>
    calcTotalDistance (a :: rest) + calcDistance ((rest.getLastD a).coords) a.coords

/-- The options object of `optimize` in `route-optimizer.js`; the JS defaults
are `useMapGrouping = true`, `use2Opt = false`, `startTreasure = null`. -/
structure Options where
  useMapGrouping : Bool
  use2Opt : Bool
  startTreasure : Option Waypoint

def defaultOptions : Options := ⟨true, false, none⟩

/-- The per-map assembly loop of `optimize`: visit maps in the given order,
sequencing each bucket anchored at the previous map's last placed waypoint
(or the start waypoint's coordinates initially). -/
def assembleRoute (ts : List Waypoint) (keys : List ℕ) (init : Option Coords) :
    List Waypoint :=
  (keys.foldl
    (fun (st : List Waypoint × Option Coords) m =>
      let sorted := sortWithinMap (mapBucket ts m) st.2
      (st.1 ++ sorted,
       if sorted.length > 0 then some ((sorted.getLastD default).coords) else st.2))
    ([], init)).1

/-- `optimize` of `src/js/route-optimizer.js`.  The argument is an `Option`
to model the `!treasures` null/undefined guard. -/
def optimize (treasures : Option (List Waypoint)) (options : Options) :
    List Waypoint :=
  match treasures with
  | none => []
  | some ts =>
    if ts.length ≤ 1 then ts
    else
      let result :=
        if options.useMapGrouping then
          assembleRoute ts
            (sortMaps (groupByMap ts) (options.startTreasure.map Waypoint.mapId))
            (options.startTreasure.map Waypoint.coords)
        else
          sortWithinMap ts (options.startTreasure.map Waypoint.coords)
      if options.use2Opt then improve2Opt result else result

/-- The options object of `optimize` in `src/unnamed/part_000` (no start
waypoint in this variant). -/
structure OptionsB where
  useMapGrouping : Bool
  use2Opt : Bool

/-- `optimize` of `src/unnamed/part_000`. -/
def optimizeB (treasures : Option (List Waypoint)) (options : OptionsB) :
    List Waypoint :=
  match treasures with
  | none => []
  | some ts =>
    if ts.length ≤ 1 then ts
    else
      let result :=
        if options.useMapGrouping then
          assembleRoute ts (sortMapsB (groupByMap ts)) none
        else
          sortWithinMap ts none
      if options.use2Opt then improve2Opt result else result

/-- The record returned by `analyzeRoute`. -/
structure RouteAnalysis where
  totalDistance : ℝ
  mapCount : ℕ
  mapJumps : ℕ

/-- The `mapJumps` loop of `analyzeRoute`: adjacent pairs with differing
map id. -/
def countJumps : List Waypoint → ℕ
  | [] => 0
  | [_] => 0
  | a :: b :: rest => (if b.mapId ≠ a.mapId then 1 else 0) + countJumps (b :: rest)

/-- `analyzeRoute` (identical in both source files); `new Set(...).size` is
the number of distinct map ids. -/
noncomputable def analyzeRoute (treasures : Option (List Waypoint)) :
    RouteAnalysis :=
  match treasures with
  | none => ⟨0, 0, 0⟩
  | some ts =>
    if ts.length = 0 then ⟨0, 0, 0⟩
    else ⟨calcTotalDistance ts, (firstDedup (ts.map Waypoint.mapId)).length,
      countJumps ts⟩

/-! ### Permutation lemmas: every stage returns a permutation of its input -/

theorem sortWithinMap_perm (treasures : List Waypoint)
    (startCoords : Option Coords) :
    (sortWithinMap treasures startCoords).Perm treasures := by
  unfold sortWithinMap
  split_ifs with h
  · exact List.Perm.refl _
  · exact spliceRun_perm _ _ _ _ (Nat.le_refl _)

theorem segReverse_perm {α : Type} (l : List α) (i k : ℕ) (hik : i ≤ k) :
    (segReverse l i k).Perm l := by
  unfold segReverse
  rw [List.append_assoc]
  conv_rhs => rw [← List.take_append_drop (i + 1) l]
  apply List.Perm.append_left
  have hdrop : (l.drop (i + 1)).drop (k - i) = l.drop (k + 1) := by
    rw [List.drop_drop]
    congr 1
    omega
  conv_rhs => rw [← List.take_append_drop (k - i) (l.drop (i + 1)), hdrop]
  exact List.Perm.append (List.reverse_perm _) (List.Perm.refl _)

theorem twoOptPass_perm {α : Type} (accept : List α → ℕ → ℕ → Bool)
    (route : List α) : ((twoOptPass accept route).1).Perm route := by
  unfold twoOptPass
  apply foldl_invariant _ (fun st : List α × Bool => st.1.Perm route)
  · exact List.Perm.refl _
  · intro st i _ hst
    apply foldl_invariant _ (fun st : List α × Bool => st.1.Perm route)
    · exact hst
    · intro st' k hk hst'
      by_cases hacc : accept st'.1 i k
      · simp only [hacc, if_true]
        obtain ⟨j, -, hj⟩ := List.mem_map.mp hk
        have hik : i ≤ k := by omega
        exact (segReverse_perm st'.1 i k hik).trans hst'
      · simp only [hacc, if_false]
        exact hst'

theorem twoOptLoop_perm {α : Type} (accept : List α → ℕ → ℕ → Bool) :
    ∀ (fuel : ℕ) (route : List α), (twoOptLoop accept fuel route).Perm route := by
  intro fuel
  induction fuel with
  | zero => intro route; exact List.Perm.refl _
  | succ n ih =>
    intro route
    show (let st := twoOptPass accept route
          if st.2 then twoOptLoop accept n st.1 else st.1).Perm route
    by_cases h : (twoOptPass accept route).2
    · simp only [h, if_true]
      exact (ih _).trans (twoOptPass_perm accept route)
    · simp only [h, if_false]
      exact twoOptPass_perm accept route

theorem improve2OptWith_perm {α : Type} (accept : List α → ℕ → ℕ → Bool)
    (maxIterations : ℕ) (treasures : List α) :
    (improve2OptWith accept maxIterations treasures).Perm treasures := by
  unfold improve2OptWith
  split_ifs with h
  · exact List.Perm.refl _
  · exact twoOptLoop_perm accept maxIterations treasures

theorem improve2Opt_perm (treasures : List Waypoint) :
    (improve2Opt treasures).Perm treasures :=
  improve2OptWith_perm accept2opt 50 treasures

private theorem flatMap_perm_of_pointwise {α K : Type} {f g : K → List α} :
    ∀ {keys : List K}, (∀ k ∈ keys, (f k).Perm (g k)) →
      (keys.flatMap f).Perm (keys.flatMap g) := by
  intro keys
  induction keys with
  | nil => intro _; exact List.Perm.refl _
  | cons k ks ih =>
    intro h
    rw [List.flatMap_cons, List.flatMap_cons]
    exact List.Perm.append (h k (by simp)) (ih (fun k' hk' => h k' (by simp [hk'])))

theorem mem_regionKeysOf {mapIds : List ℕ} {r : String} :
    r ∈ regionKeysOf mapIds ↔ ∃ m ∈ mapIds, getMapRegion m = some r := by
  unfold regionKeysOf
  rw [mem_firstDedup, List.mem_filterMap]

/-- The region/ungrouped split partitions the map ids: concatenating all
region buckets and the ungrouped bucket permutes the key list. -/
theorem regionSplit_perm (mapIds : List ℕ) :
    ((regionKeysOf mapIds).flatMap (regionMapsOf mapIds) ++
      ungroupedOf mapIds).Perm mapIds := by
  have hkeys : (((regionKeysOf mapIds).map Option.some) ++ [none]).Nodup := by
    apply List.Nodup.append
    · exact (nodup_firstDedup _).map (fun a b h => Option.some.inj h)
    · simp
    · intro κ hκ hcon
      simp only [List.mem_singleton] at hcon
      subst hcon
      obtain ⟨r, -, hr⟩ := List.mem_map.mp hκ
      exact Option.noConfusion hr
  have hcover : ∀ m ∈ mapIds,
      getMapRegion m ∈ ((regionKeysOf mapIds).map Option.some) ++ [none] := by
    intro m hm
    rcases hreg : getMapRegion m with - | r
    · simp
    · apply List.mem_append_left
      exact List.mem_map.mpr ⟨r, mem_regionKeysOf.mpr ⟨m, hm, hreg⟩, rfl⟩
  have hperm := flatMap_filter_perm getMapRegion
    (((regionKeysOf mapIds).map Option.some) ++ [none]) mapIds hkeys hcover
  rw [List.flatMap_append, List.flatMap_map] at hperm
  have h1 : (regionKeysOf mapIds).flatMap
      (fun r => mapIds.filter (fun m => decide (getMapRegion m = some r))) =
      (regionKeysOf mapIds).flatMap (regionMapsOf mapIds) := rfl
  have h2 : [Option.none (α := String)].flatMap
      (fun κ => mapIds.filter (fun m => decide (getMapRegion m = κ))) =
      ungroupedOf mapIds := by
    simp only [List.flatMap_cons, List.flatMap_nil, List.append_nil]
    rfl
  rw [h1, h2] at hperm
  exact hperm

theorem sortMaps_perm {α : Type} (groups : List (ℕ × List α))
    (startMapId : Option ℕ) :
    (sortMaps groups startMapId).Perm (groups.map Prod.fst) := by
  unfold sortMaps
  dsimp only
  split_ifs with h1 h2
  · exact List.Perm.refl _
  · -- ungrouped first
    have hregs : ((sortedRegionKeys groups (groups.map Prod.fst) startMapId).flatMap
        (sortedRegionMaps groups (groups.map Prod.fst) startMapId)).Perm
        ((regionKeysOf (groups.map Prod.fst)).flatMap
          (regionMapsOf (groups.map Prod.fst))) := by
      refine ((List.Perm.flatMap_right _ (List.perm_insertionSort _ _)).trans ?_)
      exact flatMap_perm_of_pointwise (fun r _ => List.perm_insertionSort _ _)
    have hung : (sortedUngrouped groups (groups.map Prod.fst) startMapId).Perm
        (ungroupedOf (groups.map Prod.fst)) := List.perm_insertionSort _ _
    have := (List.Perm.append hung hregs).trans
      ((List.perm_append_comm).trans (regionSplit_perm (groups.map Prod.fst)))
    exact this
  · have hregs : ((sortedRegionKeys groups (groups.map Prod.fst) startMapId).flatMap
        (sortedRegionMaps groups (groups.map Prod.fst) startMapId)).Perm
        ((regionKeysOf (groups.map Prod.fst)).flatMap
          (regionMapsOf (groups.map Prod.fst))) := by
      refine ((List.Perm.flatMap_right _ (List.perm_insertionSort _ _)).trans ?_)
      exact flatMap_perm_of_pointwise (fun r _ => List.perm_insertionSort _ _)
    have hung : (sortedUngrouped groups (groups.map Prod.fst) startMapId).Perm
        (ungroupedOf (groups.map Prod.fst)) := List.perm_insertionSort _ _
    exact (List.Perm.append hregs hung).trans (regionSplit_perm (groups.map Prod.fst))

theorem sortMapsB_perm (groups : List (ℕ × List Waypoint)) :
    (sortMapsB groups).Perm (groups.map Prod.fst) := by
  unfold sortMapsB
  dsimp only
  split_ifs with h1
  · exact List.Perm.refl _
  · exact List.Perm.map Prod.fst (spliceRun_perm _ _ _ _ (Nat.le_refl _))

private theorem assembleRoute_aux_perm (ts : List Waypoint) :
    ∀ (keys : List ℕ) (acc : List Waypoint) (init : Option Coords),
      ((keys.foldl
        (fun (st : List Waypoint × Option Coords) m =>
          let sorted := sortWithinMap (mapBucket ts m) st.2
          (st.1 ++ sorted,
           if sorted.length > 0 then some ((sorted.getLastD default).coords)
           else st.2))
        (acc, init)).1).Perm (acc ++ keys.flatMap (mapBucket ts)) := by
  intro keys
  induction keys with
  | nil =>
    intro acc init
    simp
  | cons m ks ih =>
    intro acc init
    rw [List.foldl_cons]
    refine (ih _ _).trans ?_
    rw [List.flatMap_cons, ← List.append_assoc]
    exact List.Perm.append
      (List.Perm.append_left acc (sortWithinMap_perm _ _)) (List.Perm.refl _)

theorem assembleRoute_perm (ts : List Waypoint) (keys : List ℕ)
    (init : Option Coords) :
    (assembleRoute ts keys init).Perm (keys.flatMap (mapBucket ts)) := by
  unfold assembleRoute
  exact assembleRoute_aux_perm ts keys [] init

theorem map_fst_groupByMap (ts : List Waypoint) :
    (groupByMap ts).map Prod.fst = mapKeys ts := by
  unfold groupByMap
  rw [List.map_map]
  show List.map (fun m => m) (mapKeys ts) = mapKeys ts
  exact List.map_id' _

theorem nodup_mapKeys (ts : List Waypoint) : (mapKeys ts).Nodup :=
  (List.perm_insertionSort _ _).symm.nodup (nodup_firstDedup _)

theorem mem_mapKeys {ts : List Waypoint} {m : ℕ} :
    m ∈ mapKeys ts ↔ m ∈ ts.map Waypoint.mapId := by
  unfold mapKeys
  rw [(List.perm_insertionSort _ _).mem_iff, mem_firstDedup]

/-- Concatenating the buckets over any permutation of the key list recovers
the input up to permutation. -/
theorem flatMap_mapBucket_perm {ts : List Waypoint} {keys : List ℕ}
    (hkeys : keys.Perm (mapKeys ts)) :
    (keys.flatMap (mapBucket ts)).Perm ts := by
  refine (List.Perm.flatMap_right _ hkeys).trans ?_
  apply flatMap_filter_perm Waypoint.mapId (mapKeys ts) ts (nodup_mapKeys ts)
  intro t ht
  exact mem_mapKeys.mpr (List.mem_map.mpr ⟨t, ht, rfl⟩)

private theorem use2Opt_step_perm (ts r : List Waypoint) (b : Bool)
    (hr : r.Perm ts) : (if b then improve2Opt r else r).Perm ts := by
  by_cases h3 : b
  · simp only [h3, if_true]
    exact (improve2Opt_perm _).trans hr
  · simp only [h3, if_false]
    exact hr

/-- `optimize` returns a permutation of its input, for every option value. -/
theorem optimize_perm (ts : List Waypoint) (options : Options) :
    (optimize (some ts) options).Perm ts := by
  show (if ts.length ≤ 1 then ts
    else
      let result :=
        if options.useMapGrouping then
          assembleRoute ts
            (sortMaps (groupByMap ts) (options.startTreasure.map Waypoint.mapId))
            (options.startTreasure.map Waypoint.coords)
        else
          sortWithinMap ts (options.startTreasure.map Waypoint.coords)
      if options.use2Opt then improve2Opt result else result).Perm ts
  have hA : (assembleRoute ts
      (sortMaps (groupByMap ts) (options.startTreasure.map Waypoint.mapId))
      (options.startTreasure.map Waypoint.coords)).Perm ts := by
    refine (assembleRoute_perm _ _ _).trans ?_
    apply flatMap_mapBucket_perm
    have := sortMaps_perm (groupByMap ts)
      (options.startTreasure.map Waypoint.mapId)
    rw [map_fst_groupByMap] at this
    exact this
  have hB : (sortWithinMap ts (options.startTreasure.map Waypoint.coords)).Perm ts :=
    sortWithinMap_perm _ _
  split_ifs with h1 h2 h3 h4
  · exact List.Perm.refl _
  · exact (improve2Opt_perm _).trans hA
  · exact hA
  · exact (improve2Opt_perm _).trans hB
  · exact hB

/-- `optimize` of the centroid variant returns a permutation of its input. -/
theorem optimizeB_perm (ts : List Waypoint) (options : OptionsB) :
    (optimizeB (some ts) options).Perm ts := by
  show (if ts.length ≤ 1 then ts
    else
      let result :=
        if options.useMapGrouping then
          assembleRoute ts (sortMapsB (groupByMap ts)) none
        else
          sortWithinMap ts none
      if options.use2Opt then improve2Opt result else result).Perm ts
  have hA : (assembleRoute ts (sortMapsB (groupByMap ts)) none).Perm ts := by
    refine (assembleRoute_perm _ _ _).trans ?_
    apply flatMap_mapBucket_perm
    have := sortMapsB_perm (groupByMap ts)
    rw [map_fst_groupByMap] at this
    exact this
  have hB : (sortWithinMap ts none).Perm ts := sortWithinMap_perm _ _
  split_ifs with h1 h2 h3 h4
  · exact List.Perm.refl _
  · exact (improve2Opt_perm _).trans hA
  · exact hA
  · exact (improve2Opt_perm _).trans hB
  · exact hB

/-! ### Route analytics lemmas -/

/-- Spec-side count of adjacent pairs with differing map id. -/
def countJumpsSpec (ts : List Waypoint) : ℕ :=
  ((ts.zip ts.tail).filter (fun p => decide (p.1.mapId ≠ p.2.mapId))).length

theorem countJumps_eq_spec : ∀ ts : List Waypoint, countJumps ts = countJumpsSpec ts := by
  intro ts
  induction ts with
  | nil => rfl
  | cons a rest ih =>
    cases rest with
    | nil => rfl
    | cons b r =>
      show (if b.mapId ≠ a.mapId then 1 else 0) + countJumps (b :: r) = _
      rw [ih]
      have hz : countJumpsSpec (a :: b :: r) =
          (if a.mapId ≠ b.mapId then 1 else 0) + countJumpsSpec (b :: r) := by
        unfold countJumpsSpec
        simp only [List.tail_cons]
        show (((a, b) :: ((b :: r).zip r)).filter
          (fun p => decide (p.1.mapId ≠ p.2.mapId))).length = _
        rw [List.filter_cons]
        by_cases hd : a.mapId ≠ b.mapId
        · rw [if_pos (by simpa using hd), if_pos hd, List.length_cons]
          omega
        · rw [if_neg (by simpa using hd), if_neg hd]
          omega
      rw [hz]
      by_cases h : b.mapId = a.mapId
      · rw [if_neg (not_not_intro h), if_neg (not_not_intro h.symm)]
      · rw [if_pos h, if_pos (fun hc => h hc.symm)]

theorem countJumps_le (ts : List Waypoint) : countJumps ts ≤ ts.length - 1 := by
  induction ts with
  | nil => simp [countJumps]
  | cons a rest ih =>
    cases rest with
    | nil => simp [countJumps]
    | cons b r =>
      show (if b.mapId ≠ a.mapId then 1 else 0) + countJumps (b :: r) ≤ _
      have h1 : (if b.mapId ≠ a.mapId then 1 else 0) ≤ 1 := by split_ifs <;> omega
      have h2 : countJumps (b :: r) ≤ (b :: r).length - 1 := ih
      simp only [List.length_cons] at *
      omega

/-! ### Claim theorems, first batch -/

/-- C1: for every input waypoint list and every `Options` value (any
combination of `useMapGrouping`, `use2Opt` and start waypoint), `optimize`
returns a permutation of the input multiset — same length, same elements
with the same multiplicities, nothing dropped or fabricated.  Both source
variants are covered. -/
theorem C1_optimize_is_permutation :
    (∀ (ts : List Waypoint) (options : Options),
      (optimize (some ts) options).Perm ts) ∧
    (∀ (ts : List Waypoint) (options : OptionsB),
      (optimizeB (some ts) options).Perm ts) :=
  ⟨optimize_perm, optimizeB_perm⟩

/-- C8: `optimize` is deterministic — two calls with identical input and
identical options yield identical output sequences (two-run equality over
the embedding, which is a pure function of its arguments). -/
theorem C8_optimize_deterministic :
    (∀ (ts₁ ts₂ : Option (List Waypoint)) (o₁ o₂ : Options),
      ts₁ = ts₂ → o₁ = o₂ → optimize ts₁ o₁ = optimize ts₂ o₂) ∧
    (∀ (ts₁ ts₂ : Option (List Waypoint)) (o₁ o₂ : OptionsB),
      ts₁ = ts₂ → o₁ = o₂ → optimizeB ts₁ o₁ = optimizeB ts₂ o₂) := by
  constructor
  · intro ts₁ ts₂ o₁ o₂ hts ho
    rw [hts, ho]
  · intro ts₁ ts₂ o₁ o₂ hts ho
    rw [hts, ho]

/-- Witness for C8 at a concrete input. -/
theorem C8_optimize_deterministic_witness :
    optimize (some [⟨0, 1, ⟨0, 0⟩⟩]) defaultOptions =
      optimize (some [⟨0, 1, ⟨0, 0⟩⟩]) defaultOptions :=
  C8_optimize_deterministic.1 _ _ _ _ rfl rfl

/-- C10: a `null`/absent waypoint list (not merely an empty one) makes
`optimize` return an empty route rather than raise, and `analyzeRoute`
return all-zero metrics; the absent case coincides with the empty-list case
(both are handled by the same `!treasures || length` guard).  Both source
variants are covered. -/
theorem C10_null_input :
    (∀ options : Options, optimize none options = [] ∧
      optimize none options = optimize (some []) options) ∧
    (analyzeRoute none).totalDistance = 0 ∧ (analyzeRoute none).mapCount = 0 ∧
      (analyzeRoute none).mapJumps = 0 ∧
    analyzeRoute none = analyzeRoute (some []) ∧
    (∀ options : OptionsB, optimizeB none options = [] ∧
      optimizeB none options = optimizeB (some []) options) := by
  refine ⟨fun options => ⟨rfl, rfl⟩, rfl, rfl, rfl, rfl, fun options => ⟨rfl, rfl⟩⟩

/-- C6: `analyzeRoute(route).mapJumps` equals the number of adjacent index
pairs with differing `mapId` and is at most `route.length - 1`; the empty
route yields all three fields zero. -/
theorem C6_analyzeRoute_mapJumps :
    (∀ ts : List Waypoint,
      (analyzeRoute (some ts)).mapJumps = countJumpsSpec ts) ∧
    (∀ ts : List Waypoint,
      (analyzeRoute (some ts)).mapJumps ≤ ts.length - 1) ∧
    (analyzeRoute (some [])).totalDistance = 0 ∧
    (analyzeRoute (some [])).mapCount = 0 ∧
    (analyzeRoute (some [])).mapJumps = 0 := by
  refine ⟨?_, ?_, rfl, rfl, rfl⟩
  · intro ts
    cases ts with
    | nil => rfl
    | cons a rest =>
      show countJumps (a :: rest) = countJumpsSpec (a :: rest)
      exact countJumps_eq_spec _
  · intro ts
    cases ts with
    | nil => simp [analyzeRoute]
    | cons a rest =>
      show countJumps (a :: rest) ≤ (a :: rest).length - 1
      exact countJumps_le _

/-! ### 2-opt distance analysis (C2) -/

theorem calcTotalDistance_append (l₁ l₂ : List Waypoint)
    (h₁ : l₁ ≠ []) (h₂ : l₂ ≠ []) :
    calcTotalDistance (l₁ ++ l₂) =
      calcTotalDistance l₁ +
        calcDistance (l₁.getLast h₁).coords (l₂.head h₂).coords +
        calcTotalDistance l₂ := by
  induction l₁ with
  | nil => exact absurd rfl h₁
  | cons x xs ih =>
    cases xs with
    | nil =>
      match l₂, h₂ with
      | y :: l₂', _ =>
        show calcDistance x.coords y.coords + calcTotalDistance (y :: l₂') = _
        show _ = 0 + calcDistance x.coords y.coords + calcTotalDistance (y :: l₂')
        ring
    | cons y rest =>
      show calcDistance x.coords y.coords +
          calcTotalDistance ((y :: rest) ++ l₂) = _
      rw [ih (by simp) ]
      have hgl : (x :: y :: rest).getLast h₁ = (y :: rest).getLast (by simp) :=
        List.getLast_cons (by simp)
      have hctd : calcTotalDistance (x :: y :: rest) =
          calcDistance x.coords y.coords + calcTotalDistance (y :: rest) := rfl
      rw [hgl, hctd]
      ring

theorem calcTotalDistance_reverse (l : List Waypoint) :
    calcTotalDistance l.reverse = calcTotalDistance l := by
  induction l with
  | nil => rfl
  | cons x xs ih =>
    cases xs with
    | nil => rfl
    | cons y rest =>
      have hrev : (x :: y :: rest).reverse = (y :: rest).reverse ++ [x] := by
        simp
      rw [hrev,
        calcTotalDistance_append ((y :: rest).reverse) [x] (by simp) (by simp),
        ih]
      show calcTotalDistance (y :: rest) +
          calcDistance (((y :: rest).reverse).getLast (by simp)).coords x.coords + 0 =
        calcDistance x.coords y.coords + calcTotalDistance (y :: rest)
      have hlast : ((y :: rest).reverse).getLast (by simp) = (y :: rest).head (by simp) := by
        rw [List.getLast_reverse]
      rw [hlast]
      show calcTotalDistance (y :: rest) + calcDistance y.coords x.coords + 0 = _
      rw [calcDistance_comm]
      ring

private theorem getLastD_eq_getLast_cons (a : Waypoint) (rest : List Waypoint) :
    rest.getLastD a = (a :: rest).getLast (by simp) := by
  cases rest with
  | nil => rfl
  | cons b r =>
    rw [List.getLast_cons (by simp)]
    rw [List.getLastD_eq_getLast?, List.getLast?_eq_getLast (b :: r) (by simp)]
    rfl

theorem cyclicDistance_eq (l : List Waypoint) (h : l ≠ []) :
    cyclicDistance l =
      calcTotalDistance l + calcDistance (l.getLast h).coords (l.head h).coords := by
  match l, h with
  | a :: rest, _ =>
    show calcTotalDistance (a :: rest) +
        calcDistance ((rest.getLastD a).coords) a.coords = _
    rw [getLastD_eq_getLast_cons]
    rfl

/-- Effect of reversing the middle segment on the closed-tour length when the
tail piece is nonempty (`k + 1 < n`): the two cut edges are exchanged for the
two reconnection edges. -/
private theorem cyclic_swap_piece (A M B : List Waypoint)
    (hA : A ≠ []) (hM : M ≠ []) (hB : B ≠ []) :
    cyclicDistance (A ++ (M.reverse ++ B)) =
      cyclicDistance (A ++ (M ++ B))
        - (calcDistance (A.getLast hA).coords (M.head hM).coords +
           calcDistance (M.getLast hM).coords (B.head hB).coords)
        + (calcDistance (A.getLast hA).coords (M.getLast hM).coords +
           calcDistance (M.head hM).coords (B.head hB).coords) := by
  have hMrev : M.reverse ≠ [] := by simp [hM]
  have hAMB : A ++ (M ++ B) ≠ [] := by simp [hA]
  have hAMrB : A ++ (M.reverse ++ B) ≠ [] := by simp [hA]
  rw [cyclicDistance_eq _ hAMrB, cyclicDistance_eq _ hAMB,
    calcTotalDistance_append A (M ++ B) hA (by simp [hM]),
    calcTotalDistance_append A (M.reverse ++ B) hA (by simp [hMrev]),
    calcTotalDistance_append M B hM hB,
    calcTotalDistance_append M.reverse B hMrev hB,
    calcTotalDistance_reverse]
  have hh1 : (M ++ B).head (by simp [hM]) = M.head hM := List.head_append_left hM
  have hh2 : (M.reverse ++ B).head (by simp [hMrev]) = M.reverse.head hMrev :=
    List.head_append_left hMrev
  have hh3 : M.reverse.head hMrev = M.getLast hM := List.head_reverse hMrev
  have hh4 : M.reverse.getLast hMrev = M.head hM := List.getLast_reverse hMrev
  have hg1 : (A ++ (M ++ B)).getLast (by simp [hA]) = (M ++ B).getLast (by simp [hM]) :=
    List.getLast_append_right (by simp [hM])
  have hg2 : (M ++ B).getLast (by simp [hM]) = B.getLast hB :=
    List.getLast_append_right hB
  have hg3 : (A ++ (M.reverse ++ B)).getLast (by simp [hA]) =
      (M.reverse ++ B).getLast (by simp [hMrev]) :=
    List.getLast_append_right (by simp [hMrev])
  have hg4 : (M.reverse ++ B).getLast (by simp [hMrev]) = B.getLast hB :=
    List.getLast_append_right hB
  have hd1 : (A ++ (M ++ B)).head (by simp [hA]) = A.head hA := List.head_append_left hA
  have hd2 : (A ++ (M.reverse ++ B)).head (by simp [hA]) = A.head hA :=
    List.head_append_left hA
  rw [hh1, hh2, hh3, hh4, hg1, hg2, hg3, hg4, hd1, hd2]
  ring

/-- Effect of reversing the middle segment on the closed-tour length when the
reversal reaches the end of the route (`k = n - 1`). -/
private theorem cyclic_swap_piece_nil (A M : List Waypoint)
    (hA : A ≠ []) (hM : M ≠ []) :
    cyclicDistance (A ++ M.reverse) =
      cyclicDistance (A ++ M)
        - (calcDistance (A.getLast hA).coords (M.head hM).coords +
           calcDistance (M.getLast hM).coords (A.head hA).coords)
        + (calcDistance (A.getLast hA).coords (M.getLast hM).coords +
           calcDistance (M.head hM).coords (A.head hA).coords) := by
  have hMrev : M.reverse ≠ [] := by simp [hM]
  have hAM : A ++ M ≠ [] := by simp [hA]
  have hAMr : A ++ M.reverse ≠ [] := by simp [hA]
  rw [cyclicDistance_eq _ hAMr, cyclicDistance_eq _ hAM,
    calcTotalDistance_append A M hA hM,
    calcTotalDistance_append A M.reverse hA hMrev,
    calcTotalDistance_reverse]
  have hh3 : M.reverse.head hMrev = M.getLast hM := List.head_reverse hMrev
  have hh4 : M.reverse.getLast hMrev = M.head hM := List.getLast_reverse hMrev
  have hg1 : (A ++ M).getLast hAM = M.getLast hM := List.getLast_append_right hM
  have hg2 : (A ++ M.reverse).getLast hAMr = M.reverse.getLast hMrev :=
    List.getLast_append_right hMrev
  have hd1 : (A ++ M).head hAM = A.head hA := List.head_append_left hA
  have hd2 : (A ++ M.reverse).head hAMr = A.head hA := List.head_append_left hA
  rw [hg1, hg2, hh4, hd1, hd2, hh3]
  ring

private theorem getLast_take_eq (l : List Waypoint) (j : ℕ) (hj : j < l.length)
    (h : l.take (j + 1) ≠ []) :
    (l.take (j + 1)).getLast h = l.getD j default := by
  have hlen : (l.take (j + 1)).length = j + 1 := by
    rw [List.length_take]
    omega
  rw [List.getLast_eq_getElem, List.getD_eq_getElem l default hj,
    List.getElem_take]
  congr 1
  omega

private theorem head_take_drop_eq (l : List Waypoint) (i m : ℕ)
    (hi : i < l.length) (h : (l.drop i).take m ≠ []) :
    ((l.drop i).take m).head h = l.getD i default := by
  rw [List.head_eq_getElem, List.getD_eq_getElem l default hi,
    List.getElem_take, List.getElem_drop]
  try congr 1
  try omega

private theorem getLast_take_drop_eq (l : List Waypoint) (i m : ℕ)
    (him : i + m ≤ l.length) (hm : 0 < m)
    (h : (l.drop i).take m ≠ []) :
    ((l.drop i).take m).getLast h = l.getD (i + m - 1) default := by
  have hlen : ((l.drop i).take m).length = m := by
    rw [List.length_take, List.length_drop]
    omega
  rw [List.getLast_eq_getElem, List.getD_eq_getElem l default (by omega),
    List.getElem_take, List.getElem_drop]
  congr 1
  omega

private theorem head_drop_eq (l : List Waypoint) (j : ℕ) (hj : j < l.length)
    (h : l.drop j ≠ []) :
    (l.drop j).head h = l.getD j default := by
  rw [List.head_eq_getElem, List.getD_eq_getElem l default hj,
    List.getElem_drop]
  try congr 1
  try omega

private theorem head_take_eq (l : List Waypoint) (m : ℕ) (hm : 0 < l.length)
    (h : l.take m ≠ []) :
    (l.take m).head h = l.getD 0 default := by
  rw [List.head_eq_getElem, List.getD_eq_getElem l default hm,
    List.getElem_take]

/-- The exact effect of one accepted 2-opt reversal on the closed-tour
length: the edges `(i, i+1)` and `(k, (k+1) % n)` are exchanged for
`(i, k)` and `(i+1, (k+1) % n)`. -/
theorem cyclic_segReverse (l : List Waypoint) (i k : ℕ)
    (hik : i + 2 ≤ k) (hk : k < l.length) :
    cyclicDistance (segReverse l i k) =
      cyclicDistance l
        - (calcDistance (l.getD i default).coords (l.getD (i + 1) default).coords +
           calcDistance (l.getD k default).coords
             (l.getD ((k + 1) % l.length) default).coords)
        + (calcDistance (l.getD i default).coords (l.getD k default).coords +
           calcDistance (l.getD (i + 1) default).coords
             (l.getD ((k + 1) % l.length) default).coords) := by
  have hi : i < l.length := by omega
  have hi1 : i + 1 < l.length := by omega
  have hAne : l.take (i + 1) ≠ [] := by
    have : (l.take (i + 1)).length = i + 1 := by rw [List.length_take]; omega
    intro hc
    rw [hc] at this
    simp at this
  have hMne : (l.drop (i + 1)).take (k - i) ≠ [] := by
    have : ((l.drop (i + 1)).take (k - i)).length = k - i := by
      rw [List.length_take, List.length_drop]
      omega
    intro hc
    rw [hc] at this
    simp at this
    omega
  have hMB : (l.drop (i + 1)).take (k - i) ++ l.drop (k + 1) = l.drop (i + 1) := by
    have hdd : (l.drop (i + 1)).drop (k - i) = l.drop (k + 1) := by
      rw [List.drop_drop]
      congr 1
      omega
    rw [← hdd, List.take_append_drop]
  have hl : l.take (i + 1) ++ ((l.drop (i + 1)).take (k - i) ++ l.drop (k + 1)) = l := by
    rw [hMB, List.take_append_drop]
  have hseg : segReverse l i k =
      l.take (i + 1) ++ (((l.drop (i + 1)).take (k - i)).reverse ++ l.drop (k + 1)) := by
    unfold segReverse
    rw [List.append_assoc]
  have hAlast : (l.take (i + 1)).getLast hAne = l.getD i default :=
    getLast_take_eq l i hi hAne
  have hMhead : ((l.drop (i + 1)).take (k - i)).head hMne = l.getD (i + 1) default :=
    head_take_drop_eq l (i + 1) (k - i) hi1 hMne
  have hMlast : ((l.drop (i + 1)).take (k - i)).getLast hMne = l.getD k default := by
    have := getLast_take_drop_eq l (i + 1) (k - i) (by omega) (by omega) hMne
    rw [this]
    congr 1
    omega
  by_cases hB : l.drop (k + 1) = []
  · -- the reversal reaches the end: `k = n - 1`, the wrap edge closes at 0
    have hkn : k + 1 = l.length := by
      have := List.drop_eq_nil_iff.mp hB
      omega
    have hmod : (k + 1) % l.length = 0 := by
      rw [hkn, Nat.mod_self]
    have hAhead : (l.take (i + 1)).head hAne = l.getD 0 default :=
      head_take_eq l (i + 1) (by omega) hAne
    have hl' : l.take (i + 1) ++ (l.drop (i + 1)).take (k - i) = l := by
      have h0 := hl
      rw [hB, List.append_nil] at h0
      exact h0
    have hseg' : segReverse l i k =
        l.take (i + 1) ++ ((l.drop (i + 1)).take (k - i)).reverse := by
      rw [hseg, hB, List.append_nil]
    rw [hseg', hmod]
    have := cyclic_swap_piece_nil (l.take (i + 1)) ((l.drop (i + 1)).take (k - i))
      hAne hMne
    rw [hl', hAlast, hMhead, hMlast, hAhead] at this
    exact this
  · have hk1 : k + 1 < l.length := by
      rcases Nat.lt_or_ge (k + 1) l.length with h | h
      · exact h
      · exact absurd (List.drop_eq_nil_iff.mpr h) hB
    have hmod : (k + 1) % l.length = k + 1 := Nat.mod_eq_of_lt hk1
    have hBhead : (l.drop (k + 1)).head hB = l.getD (k + 1) default :=
      head_drop_eq l (k + 1) hk1 hB
    rw [hseg, hmod]
    have := cyclic_swap_piece (l.take (i + 1)) ((l.drop (i + 1)).take (k - i))
      (l.drop (k + 1)) hAne hMne hB
    rw [hl, hAlast, hMhead, hMlast, hBhead] at this
    exact this

/-- An accepted 2-opt move strictly decreases the closed-tour length. -/
theorem cyclic_decrease_of_accept (route : List Waypoint) (i k : ℕ)
    (hik : i + 2 ≤ k) (hk : k < route.length)
    (hacc : accept2opt route i k = true) :
    cyclicDistance (segReverse route i k) ≤ cyclicDistance route := by
  have hid := cyclic_segReverse route i k hik hk
  simp only [accept2opt] at hacc
  have h := (sqrtSumLt_iff (dist2_nonneg _ _) (dist2_nonneg _ _)
    (dist2_nonneg _ _) (dist2_nonneg _ _)).mp hacc
  have h' : calcDistance (route.getD i default).coords (route.getD k default).coords +
      calcDistance (route.getD (i + 1) default).coords
        (route.getD ((k + 1) % route.length) default).coords <
      calcDistance (route.getD i default).coords (route.getD (i + 1) default).coords +
      calcDistance (route.getD k default).coords
        (route.getD ((k + 1) % route.length) default).coords := h
  rw [hid]
  linarith

theorem twoOptPass_invariant (route : List Waypoint) :
    (twoOptPass accept2opt route).1.length = route.length ∧
      cyclicDistance (twoOptPass accept2opt route).1 ≤ cyclicDistance route := by
  unfold twoOptPass
  apply foldl_invariant _
    (fun st : List Waypoint × Bool =>
      st.1.length = route.length ∧ cyclicDistance st.1 ≤ cyclicDistance route)
  · exact ⟨rfl, le_refl _⟩
  · intro st i hi hst
    apply foldl_invariant _
      (fun st : List Waypoint × Bool =>
        st.1.length = route.length ∧ cyclicDistance st.1 ≤ cyclicDistance route)
    · exact hst
    · intro st' k hk hst'
      by_cases hacc : accept2opt st'.1 i k
      · simp only [hacc, if_true]
        obtain ⟨j, hj, hjk⟩ := List.mem_map.mp hk
        have hjr := List.mem_range.mp hj
        have hik : i + 2 ≤ k := by omega
        have hkn : k < route.length := by omega
        have hkn' : k < st'.1.length := by rw [hst'.1]; exact hkn
        constructor
        · rw [(segReverse_perm st'.1 i k (by omega)).length_eq]
          exact hst'.1
        · exact (cyclic_decrease_of_accept st'.1 i k hik hkn' hacc).trans hst'.2
      · simp only [hacc, if_false]
        exact hst'

theorem twoOptLoop_cyclic_le :
    ∀ (fuel : ℕ) (route : List Waypoint),
      cyclicDistance (twoOptLoop accept2opt fuel route) ≤ cyclicDistance route := by
  intro fuel
  induction fuel with
  | zero => intro route; exact le_refl _
  | succ n ih =>
    intro route
    show cyclicDistance
      (let st := twoOptPass accept2opt route
       if st.2 then twoOptLoop accept2opt n st.1 else st.1) ≤ _
    by_cases h : (twoOptPass accept2opt route).2
    · simp only [h, if_true]
      exact (ih _).trans (twoOptPass_invariant route).2
    · simp only [h, if_false]
      exact (twoOptPass_invariant route).2

theorem improve2Opt_cyclic_le (r : List Waypoint) :
    cyclicDistance (improve2Opt r) ≤ cyclicDistance r := by
  unfold improve2Opt improve2OptWith
  split_ifs with h
  · exact le_refl _
  · exact twoOptLoop_cyclic_le 50 r

theorem improve2Opt_short (r : List Waypoint) (h : r.length ≤ 3) :
    improve2Opt r = r := by
  unfold improve2Opt improve2OptWith
  rw [if_pos h]

/-- C2 (amended): the source's 2-opt acceptance test uses the wrap-around
edge `(k+1) % n`, i.e. it optimises the closed tour; what never increases is
the closed-tour total (open path plus the last-to-first edge), and for routes
of 3 or fewer elements `improve2Opt` is the identity on the sequence value.
The open-path total of the claim can increase (see the counterexample). -/
theorem C2_improve2Opt_distance :
    (∀ r : List Waypoint, cyclicDistance (improve2Opt r) ≤ cyclicDistance r) ∧
    (∀ r : List Waypoint, r.length ≤ 3 → improve2Opt r = r) :=
  ⟨improve2Opt_cyclic_le, improve2Opt_short⟩

/-- Witness for C2 at a concrete three-element route. -/
theorem C2_improve2Opt_distance_witness :
    ([⟨0, 1, ⟨0, 0⟩⟩, ⟨1, 1, ⟨1, 0⟩⟩, ⟨2, 1, ⟨0, 1⟩⟩] : List Waypoint).length ≤ 3 ∧
      improve2Opt [⟨0, 1, ⟨0, 0⟩⟩, ⟨1, 1, ⟨1, 0⟩⟩, ⟨2, 1, ⟨0, 1⟩⟩] =
        [⟨0, 1, ⟨0, 0⟩⟩, ⟨1, 1, ⟨1, 0⟩⟩, ⟨2, 1, ⟨0, 1⟩⟩] :=
  ⟨by decide, C2_improve2Opt_distance.2 _ (by decide)⟩

set_option maxHeartbeats 8000000 in
set_option maxRecDepth 8000 in
private theorem improve2Opt_cx_eval :
    improve2Opt [(⟨0, 1, ⟨0, 0⟩⟩ : Waypoint), ⟨1, 1, ⟨1, 0⟩⟩,
        ⟨2, 1, ⟨0, 1⟩⟩, ⟨3, 1, ⟨10, 10⟩⟩] =
      [⟨0, 1, ⟨0, 0⟩⟩, ⟨1, 1, ⟨1, 0⟩⟩, ⟨3, 1, ⟨10, 10⟩⟩, ⟨2, 1, ⟨0, 1⟩⟩] := by
  norm_num [improve2Opt, improve2OptWith, twoOptLoop, twoOptPass, accept2opt,
    sqrtSumLt, dist2, segReverse, List.range_succ, List.foldl]

/-- C2 counterexample: on the 4-waypoint route
`(0,0), (1,0), (0,1), (10,10)` the pass accepts the swap at `(i,k) = (1,3)`
(the wrap edge shrinks), producing `(0,0), (1,0), (10,10), (0,1)`, whose
open-path total `1 + 2·√181` exceeds the input's `1 + √2 + √181`: the claim
`totalDistance(refine(r)) ≤ totalDistance(r)` is false as stated. -/
theorem C2_counterexample :
    ([⟨0, 1, ⟨0, 0⟩⟩, ⟨1, 1, ⟨1, 0⟩⟩, ⟨2, 1, ⟨0, 1⟩⟩,
        (⟨3, 1, ⟨10, 10⟩⟩ : Waypoint)] : List Waypoint).length > 3 ∧
      calcTotalDistance [⟨0, 1, ⟨0, 0⟩⟩, ⟨1, 1, ⟨1, 0⟩⟩, ⟨2, 1, ⟨0, 1⟩⟩,
          ⟨3, 1, ⟨10, 10⟩⟩] <
        calcTotalDistance (improve2Opt
          [⟨0, 1, ⟨0, 0⟩⟩, ⟨1, 1, ⟨1, 0⟩⟩, ⟨2, 1, ⟨0, 1⟩⟩, ⟨3, 1, ⟨10, 10⟩⟩]) := by
  constructor
  · decide
  · rw [improve2Opt_cx_eval]
    show calcDistance ⟨0, 0⟩ ⟨1, 0⟩ +
        (calcDistance ⟨1, 0⟩ ⟨0, 1⟩ + (calcDistance ⟨0, 1⟩ ⟨10, 10⟩ + 0)) <
      calcDistance ⟨0, 0⟩ ⟨1, 0⟩ +
        (calcDistance ⟨1, 0⟩ ⟨10, 10⟩ + (calcDistance ⟨10, 10⟩ ⟨0, 1⟩ + 0))
    have h2 : dist2 ⟨1, 0⟩ ⟨0, 1⟩ = 2 := by norm_num [dist2]
    have h3 : dist2 ⟨0, 1⟩ ⟨10, 10⟩ = 181 := by norm_num [dist2]
    have h4 : dist2 ⟨1, 0⟩ ⟨10, 10⟩ = 181 := by norm_num [dist2]
    have h5 : dist2 ⟨10, 10⟩ ⟨0, 1⟩ = 181 := by norm_num [dist2]
    unfold calcDistance
    rw [h2, h3, h4, h5]
    have hlt : Real.sqrt ((2 : ℚ) : ℝ) < Real.sqrt ((181 : ℚ) : ℝ) := by
      apply Real.sqrt_lt_sqrt
      · norm_num
      · norm_num
    linarith

/-! ### Greedy nearest-neighbour characterisation (C4) -/

theorem firstMinIdxBy_eq_specMinIdx_total {β : Type} (f : β → ℚ) (l : List β) :
    firstMinIdxBy f l = specMinIdx f l := by
  cases l with
  | nil => rfl
  | cons x xs => exact firstMinIdxBy_eq_specMinIdx f (x :: xs) (by simp)

/-- Spec-side transcription of the claim's algorithm for `sortWithinMap`:
with an anchor, start at the waypoint minimising the distance to the anchor
(first occurrence wins ties, strict less-than comparison); without an
anchor, start at index 0; then repeatedly remove and append the remaining
waypoint nearest to the last appended one (first occurrence wins ties);
lists of length at most 1 are returned unchanged. -/
def specGreedy (treasures : List Waypoint) (startCoords : Option Coords) :
    List Waypoint :=
  if treasures.length ≤ 1 then treasures
  else
    let start :=
      match startCoords with
      | none => 0
      | some c => specMinIdx (fun t => dist2 c t.coords) treasures
    spliceRun (fun cur rest => specMinIdx (fun t => dist2 cur.coords t.coords) rest)
      treasures.length treasures start

theorem sortWithinMap_eq_specGreedy (ts : List Waypoint) (sc : Option Coords) :
    sortWithinMap ts sc = specGreedy ts sc := by
  unfold sortWithinMap specGreedy nearestIdxTo
  have hfun : (fun (cur : Waypoint) (rest : List Waypoint) =>
      firstMinIdxBy (fun t => dist2 cur.coords t.coords) rest) =
      (fun cur rest => specMinIdx (fun t => dist2 cur.coords t.coords) rest) := by
    funext cur rest
    exact firstMinIdxBy_eq_specMinIdx_total _ _
  split_ifs with h
  · rfl
  · cases sc with
    | none => rw [hfun]
    | some c =>
      rw [hfun]
      simp only [firstMinIdxBy_eq_specMinIdx_total]

/-- The selection index used by the greedy pass picks, among the candidates,
the first one at minimal Euclidean distance from the reference point: it is a
valid index, no candidate is strictly closer, and every earlier candidate is
strictly farther. -/
theorem specMinIdx_realdist (c : Coords) (l : List Waypoint) (h : l ≠ []) :
    specMinIdx (fun t => dist2 c t.coords) l < l.length ∧
      (∀ j, j < l.length →
        calcDistance c (l.getD (specMinIdx (fun t => dist2 c t.coords) l)
          default).coords ≤ calcDistance c (l.getD j default).coords) ∧
      (∀ j, j < specMinIdx (fun t => dist2 c t.coords) l →
        calcDistance c (l.getD (specMinIdx (fun t => dist2 c t.coords) l)
          default).coords < calcDistance c (l.getD j default).coords) := by
  obtain ⟨h1, h2, h3⟩ := specMinIdx_spec (fun t => dist2 c t.coords) l h default
  refine ⟨h1, ?_, ?_⟩
  · intro j hj
    exact (calcDistance_le_iff _ _ _ _).mpr (h2 j hj)
  · intro j hj
    exact (calcDistance_lt_iff _ _ _ _).mpr (h3 j hj)

/-- C4: `sortWithinMap` implements greedy nearest-neighbour exactly as the
claim describes — anchored start at the first waypoint minimising Euclidean
distance to the anchor (index 0 without an anchor), each subsequent step
appending the first-nearest remaining waypoint — and the result is a
permutation of the input of the same length. -/
theorem C4_sortWithinMap_greedy :
    (∀ (ts : List Waypoint) (sc : Option Coords),
      sortWithinMap ts sc = specGreedy ts sc) ∧
    (∀ (ts : List Waypoint) (sc : Option Coords),
      (sortWithinMap ts sc).Perm ts ∧ (sortWithinMap ts sc).length = ts.length) ∧
    (∀ (c : Coords) (l : List Waypoint), l ≠ [] →
      specMinIdx (fun t => dist2 c t.coords) l < l.length ∧
        (∀ j, j < l.length →
          calcDistance c (l.getD (specMinIdx (fun t => dist2 c t.coords) l)
            default).coords ≤ calcDistance c (l.getD j default).coords) ∧
        (∀ j, j < specMinIdx (fun t => dist2 c t.coords) l →
          calcDistance c (l.getD (specMinIdx (fun t => dist2 c t.coords) l)
            default).coords < calcDistance c (l.getD j default).coords)) :=
  ⟨sortWithinMap_eq_specGreedy,
   fun ts sc => ⟨sortWithinMap_perm ts sc, (sortWithinMap_perm ts sc).length_eq⟩,
   specMinIdx_realdist⟩

/-- Witness for C4 at a concrete anchored two-waypoint list. -/
theorem C4_sortWithinMap_greedy_witness :
    ([(⟨0, 1, ⟨0, 0⟩⟩ : Waypoint), ⟨1, 1, ⟨5, 0⟩⟩] : List Waypoint) ≠ [] ∧
      specMinIdx (fun t => dist2 ⟨3, 0⟩ t.coords)
          [(⟨0, 1, ⟨0, 0⟩⟩ : Waypoint), ⟨1, 1, ⟨5, 0⟩⟩] <
        ([(⟨0, 1, ⟨0, 0⟩⟩ : Waypoint), ⟨1, 1, ⟨5, 0⟩⟩] : List Waypoint).length :=
  ⟨by decide, (C4_sortWithinMap_greedy.2.2 ⟨3, 0⟩ _ (by decide)).1⟩

/-! ### Centroid-greedy map ordering (C7) -/

/-- Spec-side centroid: the arithmetic mean of the waypoints' coordinates,
with the defined fallback `(20, 20)` for an empty bucket. -/
def specCenter (treasures : List Waypoint) : Coords :=
  if treasures = [] then ⟨20, 20⟩
  else
    ⟨(treasures.map (fun t => t.coords.x)).sum / (treasures.length : ℚ),
     (treasures.map (fun t => t.coords.y)).sum / (treasures.length : ℚ)⟩

private theorem foldl_coordSum (ts : List Waypoint) :
    ∀ acc : Coords,
      ts.foldl (fun (acc : Coords) t => ⟨acc.x + t.coords.x, acc.y + t.coords.y⟩) acc =
        ⟨acc.x + (ts.map (fun t => t.coords.x)).sum,
         acc.y + (ts.map (fun t => t.coords.y)).sum⟩ := by
  induction ts with
  | nil => intro acc; simp
  | cons t rest ih =>
    intro acc
    rw [List.foldl_cons, ih]
    simp only [List.map_cons, List.sum_cons]
    congr 1 <;> ring

theorem calcCenter_eq_specCenter (ts : List Waypoint) :
    calcCenter ts = specCenter ts := by
  unfold calcCenter specCenter
  rcases eq_or_ne ts [] with h | h
  · subst h
    simp
  · rw [if_neg (by simpa using h), if_neg h, foldl_coordSum]
    simp

/-- Spec-side transcription of the centroid-greedy policy: start at the
first map with the maximal waypoint count, then repeatedly move to the
first unvisited map whose centroid is nearest to the current map's
centroid. -/
def specCentroidTour (groups : List (ℕ × List Waypoint)) : List ℕ :=
  let mapIds := groups.map Prod.fst
  if mapIds.length ≤ 1 then mapIds
  else
    let startId := specFirstMax (mapCount groups) mapIds (mapIds.getD 0 0)
    let startIdx := mapIds.findIdx (fun m => decide (m = startId))
    (spliceRun
      (fun cur rest =>
        specMinIdx (fun p => dist2 (specCenter cur.2) (specCenter p.2)) rest)
      groups.length groups startIdx).map Prod.fst

theorem sortMapsB_eq_specCentroidTour (groups : List (ℕ × List Waypoint)) :
    sortMapsB groups = specCentroidTour groups := by
  unfold sortMapsB specCentroidTour
  dsimp only
  split_ifs with h
  · rfl
  · have hfun : (fun (cur : ℕ × List Waypoint) (rest : List (ℕ × List Waypoint)) =>
        firstMinIdxBy (fun p => dist2 (calcCenter cur.2) (calcCenter p.2)) rest) =
        (fun cur rest =>
          specMinIdx (fun p => dist2 (specCenter cur.2) (specCenter p.2)) rest) := by
      funext cur rest
      rw [firstMinIdxBy_eq_specMinIdx_total]
      simp only [calcCenter_eq_specCenter]
    rw [hfun]
    rcases hm : groups.map Prod.fst with - | ⟨m0, mrest⟩
    · rw [hm] at h
      simp at h
    · have hred : reduceMax (mapCount groups) ((m0 :: mrest).getD 0 0)
          (m0 :: mrest) =
          specFirstMax (mapCount groups) (m0 :: mrest) ((m0 :: mrest).getD 0 0) := by
        show reduceMax (mapCount groups) m0 (m0 :: mrest) = _
        exact reduceMax_head_eq_specFirstMax _ m0 mrest
      rw [hred]

private theorem specFirstMax_mem {β : Type} (g : β → ℕ) (x : β) (xs : List β) :
    specFirstMax g (x :: xs) x ∈ x :: xs := by
  unfold specFirstMax
  rcases hf : (x :: xs).find? (fun z => decide (∀ y ∈ x :: xs, g y ≤ g z)) with - | z
  · simp
  · have := List.mem_of_find?_eq_some hf
    simpa using this

/-- The first emitted map of the centroid-greedy policy is the first map
with the maximal waypoint count. -/
theorem sortMapsB_head (groups : List (ℕ × List Waypoint)) (h : groups ≠ []) :
    (sortMapsB groups).head? =
      some (specFirstMax (mapCount groups) (groups.map Prod.fst)
        ((groups.map Prod.fst).getD 0 0)) := by
  match groups, h with
  | g0 :: gs, _ =>
    by_cases hlen : ((g0 :: gs).map Prod.fst).length ≤ 1
    · have hgs : gs = [] := by
        simp only [List.map_cons, List.length_cons, List.length_map] at hlen
        exact List.length_eq_zero.mp (by omega)
      subst hgs
      show some g0.1 = some (specFirstMax (mapCount [g0]) [g0.1] g0.1)
      unfold specFirstMax
      rw [List.find?_cons]
      have hp : (decide (∀ y ∈ [g0.1], mapCount [g0] y ≤ mapCount [g0] g0.1)) = true := by
        simp
      rw [hp]
      rfl
    · -- reduce `sortMapsB` to its splice loop and read off the first element
      rw [sortMapsB_eq_specCentroidTour]
      unfold specCentroidTour
      dsimp only
      rw [if_neg hlen]
      set startId := specFirstMax (mapCount (g0 :: gs)) ((g0 :: gs).map Prod.fst)
        (((g0 :: gs).map Prod.fst).getD 0 0) with hsid
      have hmem : startId ∈ (g0 :: gs).map Prod.fst := by
        rw [hsid]
        show specFirstMax (mapCount (g0 :: gs)) (g0.1 :: gs.map Prod.fst) g0.1 ∈
          g0.1 :: gs.map Prod.fst
        exact specFirstMax_mem _ _ _
      have hfidx : ((g0 :: gs).map Prod.fst).findIdx
          (fun m => decide (m = startId)) < ((g0 :: gs).map Prod.fst).length := by
        rw [List.findIdx_lt_length]
        exact ⟨startId, hmem, by simp⟩
      set idx := ((g0 :: gs).map Prod.fst).findIdx (fun m => decide (m = startId))
        with hidx
      have hidxlt : idx < gs.length + 1 := by
        have h0 := hfidx
        simp only [List.length_map, List.length_cons] at h0
        exact h0
      have hminidx : min idx gs.length = idx := by omega
      have hspl : spliceRun
          (fun cur rest =>
            specMinIdx (fun p => dist2 (specCenter cur.2) (specCenter p.2)) rest)
          (g0 :: gs).length (g0 :: gs) idx =
          ((g0 :: gs).getD (min idx gs.length) g0) ::
            spliceRun
              (fun cur rest =>
                specMinIdx (fun p => dist2 (specCenter cur.2) (specCenter p.2)) rest)
              gs.length ((g0 :: gs).eraseIdx (min idx gs.length))
              (specMinIdx
                (fun p => dist2
                  (specCenter ((g0 :: gs).getD (min idx gs.length) g0).2)
                  (specCenter p.2))
                ((g0 :: gs).eraseIdx (min idx gs.length))) := rfl
      rw [hspl, List.map_cons, List.head?_cons]
      congr 1
      rw [hminidx]
      have hb : idx < (g0 :: gs).length := by simpa using hidxlt
      have hgetd : (g0 :: gs).getD idx g0 = (g0 :: gs).get ⟨idx, hb⟩ := by
        rw [List.getD_eq_getElem _ _ hb, List.get_eq_getElem]
      have hfidx_elem := List.findIdx_getElem (w := hfidx)
      simp only [decide_eq_true_eq] at hfidx_elem
      have hmapget : ((g0 :: gs).map Prod.fst).get ⟨idx, hfidx⟩ =
          ((g0 :: gs).get ⟨idx, hb⟩).1 := by
        rw [List.get_eq_getElem, List.get_eq_getElem, List.getElem_map]
      rw [List.get_eq_getElem] at hmapget
      rw [hmapget] at hfidx_elem
      rw [hgetd, hfidx_elem]

/-- The centroid-step selection picks, among the unvisited maps, the first
one whose centroid is at minimal Euclidean distance from the reference
centroid. -/
theorem specMinIdx_centroid_realdist (c : Coords)
    (l : List (ℕ × List Waypoint)) (h : l ≠ []) :
    specMinIdx (fun p => dist2 c (specCenter p.2)) l < l.length ∧
      (∀ j, j < l.length →
        calcDistance c (specCenter (l.getD
          (specMinIdx (fun p => dist2 c (specCenter p.2)) l) default).2) ≤
          calcDistance c (specCenter (l.getD j default).2)) ∧
      (∀ j, j < specMinIdx (fun p => dist2 c (specCenter p.2)) l →
        calcDistance c (specCenter (l.getD
          (specMinIdx (fun p => dist2 c (specCenter p.2)) l) default).2) <
          calcDistance c (specCenter (l.getD j default).2)) := by
  obtain ⟨h1, h2, h3⟩ := specMinIdx_spec (fun p => dist2 c (specCenter p.2)) l h default
  refine ⟨h1, ?_, ?_⟩
  · intro j hj
    exact (calcDistance_le_iff _ _ _ _).mpr (h2 j hj)
  · intro j hj
    exact (calcDistance_lt_iff _ _ _ _).mpr (h3 j hj)

/-- C7: the centroid-greedy map ordering (`src/unnamed/part_000`) uses the
arithmetic-mean centroid with the `(20,20)` empty fallback, starts at the
map with the most waypoints (first encountered wins ties), and repeatedly
hops to the unvisited map whose centroid is nearest (in Euclidean distance)
to the current map's centroid, first occurrence winning ties. -/
theorem C7_sortMapsB_centroid :
    (∀ ts : List Waypoint, calcCenter ts = specCenter ts) ∧
    (∀ groups : List (ℕ × List Waypoint),
      sortMapsB groups = specCentroidTour groups) ∧
    (∀ groups : List (ℕ × List Waypoint), groups ≠ [] →
      (sortMapsB groups).head? =
        some (specFirstMax (mapCount groups) (groups.map Prod.fst)
          ((groups.map Prod.fst).getD 0 0))) ∧
    (∀ (c : Coords) (l : List (ℕ × List Waypoint)), l ≠ [] →
      specMinIdx (fun p => dist2 c (specCenter p.2)) l < l.length ∧
        (∀ j, j < l.length →
          calcDistance c (specCenter (l.getD
            (specMinIdx (fun p => dist2 c (specCenter p.2)) l) default).2) ≤
            calcDistance c (specCenter (l.getD j default).2)) ∧
        (∀ j, j < specMinIdx (fun p => dist2 c (specCenter p.2)) l →
          calcDistance c (specCenter (l.getD
            (specMinIdx (fun p => dist2 c (specCenter p.2)) l) default).2) <
            calcDistance c (specCenter (l.getD j default).2))) :=
  ⟨calcCenter_eq_specCenter, sortMapsB_eq_specCentroidTour, sortMapsB_head,
   specMinIdx_centroid_realdist⟩

/-- Concrete two-map grouping used as the C7 witness input. -/
def c7groups : List (ℕ × List Waypoint) :=
  [(371, [⟨0, 371, ⟨1, 1⟩⟩]), (367, [⟨1, 367, ⟨2, 2⟩⟩])]

/-- Witness for C7 at a concrete two-map grouping. -/
theorem C7_sortMapsB_centroid_witness :
    c7groups ≠ [] ∧
      (sortMapsB c7groups).head? =
        some (specFirstMax (mapCount c7groups) (c7groups.map Prod.fst)
          ((c7groups.map Prod.fst).getD 0 0)) :=
  ⟨by decide, C7_sortMapsB_centroid.2.2.1 _ (by decide)⟩

/-! ### Region-aware map ordering (C5) -/

private theorem sorted_head_start {β : Type} [DecidableEq β] (s : β)
    (cnt : β → ℕ) (l : List β) (hs : s ∈ l) :
    (List.insertionSort (startLe (some s) cnt) l).head? = some s := by
  have hsorted := List.sorted_insertionSort (startLe (some s) cnt) l
  have hmem : s ∈ List.insertionSort (startLe (some s) cnt) l :=
    (List.perm_insertionSort _ _).mem_iff.mpr hs
  rcases hsort : List.insertionSort (startLe (some s) cnt) l with - | ⟨h, t⟩
  · rw [hsort] at hmem
    exact absurd hmem (List.not_mem_nil s)
  · rw [hsort] at hmem hsorted
    rcases List.mem_cons.mp hmem with heq | htl
    · simp [heq]
    · have hpair : startLe (some s) cnt h s := (List.sorted_cons.mp hsorted).1 s htl
      have hpair' : h = s ∨ (¬ s = s ∧ cnt s ≤ cnt h) := hpair
      rcases hpair' with heq2 | ⟨hne, -⟩
      · simp [heq2]
      · exact absurd rfl hne

/-- When a start region resolves and occurs among the visited regions, the
region sort emits it first. -/
theorem sortedRegionKeys_head (groups : List (ℕ × List Waypoint))
    (mapIds : List ℕ) (start : Option ℕ) (s : String)
    (hres : startRegionOf start = some s) (hmem : s ∈ regionKeysOf mapIds) :
    (sortedRegionKeys groups mapIds start).head? = some s := by
  unfold sortedRegionKeys
  rw [hres]
  exact sorted_head_start s _ _ hmem

/-- Without a resolved start region, the regions are emitted in descending
order of total waypoint count. -/
theorem sortedRegionKeys_sorted_noStart (groups : List (ℕ × List Waypoint))
    (mapIds : List ℕ) (start : Option ℕ)
    (hnone : startRegionOf start = none) :
    List.Sorted (fun a b => regionCnt groups mapIds b ≤ regionCnt groups mapIds a)
      (sortedRegionKeys groups mapIds start) := by
  unfold sortedRegionKeys
  rw [hnone]
  exact List.sorted_insertionSort (startLe none (regionCnt groups mapIds))
    (regionKeysOf mapIds)

/-- The assembly order of `sortMaps`: all region maps precede all ungrouped
maps unless the start map is truthy, resolves to no region and lies in the
ungrouped bucket, in which case the ungrouped maps come first. -/
theorem sortMaps_assemble (groups : List (ℕ × List Waypoint)) (start : Option ℕ)
    (hlen : ¬ (groups.map Prod.fst).length ≤ 1) :
    (¬ (startTruthy start = true ∧ startRegionOf start = none ∧
        (start.getD 0) ∈ ungroupedOf (groups.map Prod.fst)) →
      sortMaps groups start =
        (sortedRegionKeys groups (groups.map Prod.fst) start).flatMap
          (sortedRegionMaps groups (groups.map Prod.fst) start) ++
          sortedUngrouped groups (groups.map Prod.fst) start) ∧
    ((startTruthy start = true ∧ startRegionOf start = none ∧
        (start.getD 0) ∈ ungroupedOf (groups.map Prod.fst)) →
      sortMaps groups start =
        sortedUngrouped groups (groups.map Prod.fst) start ++
          (sortedRegionKeys groups (groups.map Prod.fst) start).flatMap
            (sortedRegionMaps groups (groups.map Prod.fst) start)) := by
  constructor
  · intro hcond
    unfold sortMaps
    dsimp only
    rw [if_neg hlen, if_neg hcond]
  · intro hcond
    unfold sortMaps
    dsimp only
    rw [if_neg hlen, if_pos hcond]

/-- Scenario B input: map 367 (region `gyr_abania`) with 1 waypoint and map
371 (region `othard`) with 3 waypoints, no start anchor. -/
def scenarioB : List Waypoint :=
  [⟨0, 367, ⟨1, 1⟩⟩, ⟨1, 371, ⟨2, 2⟩⟩, ⟨2, 371, ⟨3, 3⟩⟩, ⟨3, 371, ⟨4, 4⟩⟩]

set_option maxHeartbeats 8000000 in
set_option maxRecDepth 16000 in
private theorem scenarioB_eval :
    (optimize (some scenarioB) ⟨true, false, none⟩).map Waypoint.mapId =
      [371, 371, 371, 367] := by
  norm_num [scenarioB, optimize, assembleRoute, sortMaps, groupByMap, mapKeys,
    mapBucket, lookupBucket, mapCount, sortedRegionKeys, sortedRegionMaps,
    sortedUngrouped, regionKeysOf, regionMapsOf, ungroupedOf, regionCnt,
    startRegionOf, startTruthy, startLe, getMapRegion, MAP_REGION_GROUPS,
    firstDedup, firstDedupAux, List.insertionSort, List.orderedInsert,
    sortWithinMap, nearestIdxTo, firstMinIdxBy, fmAux, spliceRun, dist2,
    List.foldl]

/-- C5: in the region-aware policy, regions are emitted with the start
region first when one resolves and occurs among the visited maps, otherwise
in descending order of total waypoint count; ungrouped maps come first
exactly when the start map is truthy, resolves to no region and lies in the
ungrouped bucket, otherwise all region maps precede all ungrouped maps; and
in Scenario B (region `othard` holds 3 waypoints, region `gyr_abania` one,
no anchor) the optimised route begins with map 371's waypoints. -/
theorem C5_sortMaps_region_policy :
    (∀ (groups : List (ℕ × List Waypoint)) (mapIds : List ℕ)
        (start : Option ℕ) (s : String),
      startRegionOf start = some s → s ∈ regionKeysOf mapIds →
      (sortedRegionKeys groups mapIds start).head? = some s) ∧
    (∀ (groups : List (ℕ × List Waypoint)) (mapIds : List ℕ)
        (start : Option ℕ),
      startRegionOf start = none →
      List.Sorted (fun a b => regionCnt groups mapIds b ≤ regionCnt groups mapIds a)
        (sortedRegionKeys groups mapIds start)) ∧
    (∀ (groups : List (ℕ × List Waypoint)) (start : Option ℕ),
      ¬ (groups.map Prod.fst).length ≤ 1 →
      (¬ (startTruthy start = true ∧ startRegionOf start = none ∧
          (start.getD 0) ∈ ungroupedOf (groups.map Prod.fst)) →
        sortMaps groups start =
          (sortedRegionKeys groups (groups.map Prod.fst) start).flatMap
            (sortedRegionMaps groups (groups.map Prod.fst) start) ++
            sortedUngrouped groups (groups.map Prod.fst) start) ∧
      ((startTruthy start = true ∧ startRegionOf start = none ∧
          (start.getD 0) ∈ ungroupedOf (groups.map Prod.fst)) →
        sortMaps groups start =
          sortedUngrouped groups (groups.map Prod.fst) start ++
            (sortedRegionKeys groups (groups.map Prod.fst) start).flatMap
              (sortedRegionMaps groups (groups.map Prod.fst) start))) ∧
    (optimize (some scenarioB) ⟨true, false, none⟩).map Waypoint.mapId =
      [371, 371, 371, 367] :=
  ⟨sortedRegionKeys_head, sortedRegionKeys_sorted_noStart, sortMaps_assemble,
   scenarioB_eval⟩

/-- Witness for C5: with start map 367 the start region `gyr_abania`
resolves and is emitted first among the scenario's regions. -/
theorem C5_sortMaps_region_policy_witness :
    startRegionOf (some 367) = some "gyr_abania" ∧
      "gyr_abania" ∈ regionKeysOf [367, 371] ∧
      (sortedRegionKeys (groupByMap scenarioB) [367, 371]
        (some 367)).head? = some "gyr_abania" :=
  ⟨by decide, by decide,
   C5_sortMaps_region_policy.1 (groupByMap scenarioB) [367, 371] (some 367)
     "gyr_abania" (by decide) (by decide)⟩

/-! ### Raw (possibly malformed) inputs (C3)

The source never validates its input: `optimize` has no `throw`, no
type check and no guard beyond `!treasures || treasures.length <= 1`, and
the identifier `InvalidInputError` occurs nowhere in the repository.  To
settle what actually happens on a malformed record we re-embed the engine
over *raw* waypoints whose numeric fields may be `NaN` (the value a
non-numeric `mapId` or coordinate produces under the source's arithmetic):
`Option ℚ` with `none` for `NaN`.  IEEE semantics make every comparison
against `NaN` false, so the greedy scans simply never select on a `NaN`
distance and the records flow through to the output.  Two `NaN` map ids
share the object key `"NaN"`, hence one bucket, and `Object.keys` lists
integer-like keys in ascending order before the remaining keys in
insertion order; a truthy (hence non-`NaN`, nonzero) start id compares by
`===` exactly as structural equality does.  The model covers inputs whose
fields are of JavaScript number type; a field of another type behaves as
its numeric coercion wherever the source does arithmetic on it. -/

/-- Raw 2-D coordinates: `none` models `NaN`. -/
structure RawCoords where
  x : Option ℚ
  y : Option ℚ
deriving DecidableEq, Repr

/-- A raw waypoint record: the map id may be `NaN` (`none`). -/
structure RawWaypoint where
  mapId : Option ℚ
  coords : RawCoords
deriving DecidableEq, Repr

instance : Inhabited RawWaypoint := ⟨⟨none, ⟨none, none⟩⟩⟩

/-- Squared distance on raw coordinates: `NaN` (`none`) as soon as any
component is `NaN`, mirroring `(p1.x-p2.x)^2 + (p1.y-p2.y)^2` under IEEE
`NaN` propagation (and `Math.sqrt(NaN) = NaN`). -/
def rawD2 (p q : RawCoords) : Option ℚ :=
  match p.x, p.y, q.x, q.y with
  | some a, some b, some c, some d => some ((a - c) ^ 2 + (b - d) ^ 2)
  | _, _, _, _ => none

/-- The source's first-minimum scan over possibly-`NaN` distances:
`minDist` starts at `Infinity` (modelled `none`), an update needs
`dist < minDist` to hold, which is false whenever `dist` is `NaN` — so
`minDist` is always `Infinity` or a genuine number, and the index of a
`NaN`-distance candidate is never taken.  Distances are compared through
their squares (the values are square roots of nonnegatives, and `√` is
strictly monotone). -/
def rawFmAux (f : β → Option ℚ) : List β → ℕ → ℕ → Option ℚ → ℕ
  | [], best, _, _ => best
  | x :: xs, best, i, m =>
    match f x, m with
    | some d, none => rawFmAux f xs i (i + 1) (some d)
    | some d, some mv =>
      if d < mv then rawFmAux f xs i (i + 1) (some d)
      else rawFmAux f xs best (i + 1) (some mv)
    | none, _ => rawFmAux f xs best (i + 1) m

/-- First index minimising a possibly-`NaN` value (`0` when every value is
`NaN`, as in the source where `currentIdx`/`nearestIdx` keep their initial
`0`). -/
def rawMinIdx (f : β → Option ℚ) (l : List β) : ℕ :=
  rawFmAux f l 0 0 none

/-- `sortWithinMap` over raw records. -/
def sortWithinMapRaw (treasures : List RawWaypoint)
    (startCoords : Option RawCoords) : List RawWaypoint :=
  if treasures.length ≤ 1 then treasures
  else
    let currentIdx :=
      match startCoords with
      | none => 0
      | some c => rawMinIdx (fun t => rawD2 c t.coords) treasures
    spliceRun (fun cur rest => rawMinIdx (fun t => rawD2 cur.coords t.coords) rest)
      treasures.length treasures currentIdx

/-- Integer-like object key test: the canonical nonnegative integers below
`2^32 - 1` are iterated first in ascending order; every other numeric key
(`NaN`, negative or fractional values) is a string key in insertion
order. -/
def rawIsIndexKey : Option ℚ → Bool
  | some q => decide (q.den = 1 ∧ 0 ≤ q.num ∧ q.num < 4294967295)
  | none => false

/-- The bucket of one raw map key (`NaN` ids share the key `"NaN"`, which
structural equality of `Option ℚ` reproduces). -/
def mapBucketRaw (ts : List RawWaypoint) (m : Option ℚ) : List RawWaypoint :=
  ts.filter (fun t => decide (t.mapId = m))

/-- `Object.keys` of the raw `groupByMap` result: distinct keys, the
integer-like ones first in ascending order, the rest in insertion order. -/
def rawMapKeys (ts : List RawWaypoint) : List (Option ℚ) :=
  let ks := firstDedup (ts.map RawWaypoint.mapId)
  List.insertionSort (fun a b => a.getD 0 ≤ b.getD 0) (ks.filter rawIsIndexKey) ++
    ks.filter (fun k => !rawIsIndexKey k)

/-- `groupByMap` over raw records. -/
def groupByMapRaw (ts : List RawWaypoint) : List (Option ℚ × List RawWaypoint) :=
  (rawMapKeys ts).map (fun m => (m, mapBucketRaw ts m))

/-- `mapGroups[m]` on the raw association list. -/
def lookupBucketRaw (groups : List (Option ℚ × List RawWaypoint))
    (m : Option ℚ) : List RawWaypoint :=
  ((groups.find? (fun p => decide (p.1 = m))).map Prod.snd).getD []

/-- `mapGroups[m].length` on the raw association list. -/
def mapCountRaw (groups : List (Option ℚ × List RawWaypoint))
    (m : Option ℚ) : ℕ :=
  (lookupBucketRaw groups m).length

/-- `getMapRegion` on a raw id: `Array.prototype.includes` (SameValueZero)
can only match the nonnegative integers of the static table, and matches
nothing for `NaN`. -/
def getMapRegionRaw : Option ℚ → Option String
  | none => none
  | some q => if q.den = 1 ∧ 0 ≤ q.num then getMapRegion q.num.toNat else none

/-- JavaScript truthiness of the raw start id: `null`, `NaN` and `0` are
falsy. -/
def startTruthyRaw : Option (Option ℚ) → Bool
  | none => false
  | some none => false
  | some (some q) => decide (q ≠ 0)

/-- `const startRegion = startMapId ? getMapRegion(startMapId) : null` on a
raw id. -/
def startRegionOfRaw (startMapId : Option (Option ℚ)) : Option String :=
  if startTruthyRaw startMapId then getMapRegionRaw (startMapId.getD none)
  else none

/-- Region keys present among the raw maps, in first-encounter order. -/
def regionKeysOfRaw (mapIds : List (Option ℚ)) : List String :=
  firstDedup (mapIds.filterMap getMapRegionRaw)

/-- `regionGroups[r]` on raw ids. -/
def regionMapsOfRaw (mapIds : List (Option ℚ)) (r : String) : List (Option ℚ) :=
  mapIds.filter (fun m => decide (getMapRegionRaw m = some r))

/-- `ungroupedMaps` on raw ids. -/
def ungroupedOfRaw (mapIds : List (Option ℚ)) : List (Option ℚ) :=
  mapIds.filter (fun m => decide (getMapRegionRaw m = none))

/-- `regionTreasureCounts[r]` on raw ids. -/
def regionCntRaw (groups : List (Option ℚ × List RawWaypoint))
    (mapIds : List (Option ℚ)) (r : String) : ℕ :=
  ((regionMapsOfRaw mapIds r).map (mapCountRaw groups)).sum

/-- `sortedRegions` on raw ids (a truthy start id is a non-`NaN` nonzero
number, for which `===` agrees with structural equality). -/
def sortedRegionKeysRaw (groups : List (Option ℚ × List RawWaypoint))
    (mapIds : List (Option ℚ)) (startMapId : Option (Option ℚ)) : List String :=
  List.insertionSort
    (startLe (startRegionOfRaw startMapId) (regionCntRaw groups mapIds))
    (regionKeysOfRaw mapIds)

/-- One raw region's maps after the in-place sort. -/
def sortedRegionMapsRaw (groups : List (Option ℚ × List RawWaypoint))
    (mapIds : List (Option ℚ)) (startMapId : Option (Option ℚ)) (r : String) :
    List (Option ℚ) :=
  let s : Option (Option ℚ) :=
    if startTruthyRaw startMapId ∧ startRegionOfRaw startMapId = some r
    then startMapId else none
  List.insertionSort (startLe s (mapCountRaw groups)) (regionMapsOfRaw mapIds r)

/-- The raw ungrouped maps after their sort. -/
def sortedUngroupedRaw (groups : List (Option ℚ × List RawWaypoint))
    (mapIds : List (Option ℚ)) (startMapId : Option (Option ℚ)) :
    List (Option ℚ) :=
  let s : Option (Option ℚ) :=
    if startTruthyRaw startMapId ∧ startRegionOfRaw startMapId = none
    then startMapId else none
  List.insertionSort (startLe s (mapCountRaw groups)) (ungroupedOfRaw mapIds)

/-- `sortMaps` over raw ids. -/
def sortMapsRaw (groups : List (Option ℚ × List RawWaypoint))
    (startMapId : Option (Option ℚ)) : List (Option ℚ) :=
  let mapIds := groups.map Prod.fst
  if mapIds.length ≤ 1 then mapIds
  else
    let regs := (sortedRegionKeysRaw groups mapIds startMapId).flatMap
      (sortedRegionMapsRaw groups mapIds startMapId)
    let ung := sortedUngroupedRaw groups mapIds startMapId
    if startTruthyRaw startMapId ∧ startRegionOfRaw startMapId = none ∧
        (startMapId.getD none) ∈ ungroupedOfRaw mapIds
    then ung ++ regs
    else regs ++ ung

/-- The per-map assembly loop of `optimize` over raw records. -/
def assembleRouteRaw (ts : List RawWaypoint) (keys : List (Option ℚ))
    (init : Option RawCoords) : List RawWaypoint :=
  (keys.foldl
    (fun (st : List RawWaypoint × Option RawCoords) m =>
      let sorted := sortWithinMapRaw (mapBucketRaw ts m) st.2
      (st.1 ++ sorted,
       if sorted.length > 0 then some ((sorted.getLastD default).coords)
       else st.2))
    ([], init)).1

/-- The 2-opt acceptance test over raw records: any `NaN` distance makes the
comparison `d3 + d4 < d1 + d2` false, so no swap is taken across a `NaN`
edge. -/
def accept2optRaw (route : List RawWaypoint) (i k : ℕ) : Bool :=
  let n := route.length
  match rawD2 (route.getD i default).coords (route.getD (i + 1) default).coords,
    rawD2 (route.getD k default).coords (route.getD ((k + 1) % n) default).coords,
    rawD2 (route.getD i default).coords (route.getD k default).coords,
    rawD2 (route.getD (i + 1) default).coords
      (route.getD ((k + 1) % n) default).coords with
  | some d1, some d2, some d3, some d4 => sqrtSumLt d3 d4 d1 d2
  | _, _, _, _ => false

/-- `improve2Opt` over raw records (default budget `50`). -/
def improve2OptRaw (treasures : List RawWaypoint) : List RawWaypoint :=
  improve2OptWith accept2optRaw 50 treasures

/-- The options object of `optimize` over raw records. -/
structure RawOptions where
  useMapGrouping : Bool
  use2Opt : Bool
  startTreasure : Option RawWaypoint

/-- `optimize` re-embedded over raw records: identical control flow, no
validation anywhere. -/
def optimizeRaw (treasures : Option (List RawWaypoint)) (options : RawOptions) :
    List RawWaypoint :=
  match treasures with
  | none => []
  | some ts =>
    if ts.length ≤ 1 then ts
    else
      let result :=
        if options.useMapGrouping then
          assembleRouteRaw ts
            (sortMapsRaw (groupByMapRaw ts)
              (options.startTreasure.map RawWaypoint.mapId))
            (options.startTreasure.map RawWaypoint.coords)
        else
          sortWithinMapRaw ts (options.startTreasure.map RawWaypoint.coords)
      if options.use2Opt then improve2OptRaw result else result

/-- The error type the specification names for malformed input.  No source
file of the repository declares it (or any error), throws, or validates; it
exists here only to type the specification-side reading of `optimize` as a
fallible call. -/
inductive InvalidInputError where
  | invalidInput : InvalidInputError
deriving DecidableEq, Repr

/-- The fallible reading of `optimize`: since the body contains no `throw`
and no validation, every call takes the success path. -/
def optimizeRawE (treasures : Option (List RawWaypoint))
    (options : RawOptions) : Except InvalidInputError (List RawWaypoint) :=
  Except.ok (optimizeRaw treasures options)

/-! Permutation lemmas for the raw embedding. -/

theorem sortWithinMapRaw_perm (treasures : List RawWaypoint)
    (startCoords : Option RawCoords) :
    (sortWithinMapRaw treasures startCoords).Perm treasures := by
  unfold sortWithinMapRaw
  split_ifs with h
  · exact List.Perm.refl _
  · exact spliceRun_perm _ _ _ _ (Nat.le_refl _)

theorem rawMapKeys_perm_dedup (ts : List RawWaypoint) :
    (rawMapKeys ts).Perm (firstDedup (ts.map RawWaypoint.mapId)) := by
  unfold rawMapKeys
  refine (List.Perm.append (List.perm_insertionSort _ _)
    (List.Perm.refl _)).trans ?_
  exact List.filter_append_perm _ _

theorem nodup_rawMapKeys (ts : List RawWaypoint) : (rawMapKeys ts).Nodup :=
  (rawMapKeys_perm_dedup ts).nodup_iff.mpr (nodup_firstDedup _)

theorem mem_rawMapKeys {ts : List RawWaypoint} {m : Option ℚ} :
    m ∈ rawMapKeys ts ↔ m ∈ ts.map RawWaypoint.mapId :=
  (rawMapKeys_perm_dedup ts).mem_iff.trans (mem_firstDedup _ _)

theorem mem_regionKeysOfRaw {mapIds : List (Option ℚ)} {r : String} :
    r ∈ regionKeysOfRaw mapIds ↔ ∃ m ∈ mapIds, getMapRegionRaw m = some r := by
  unfold regionKeysOfRaw
  rw [mem_firstDedup, List.mem_filterMap]

/-- The raw region/ungrouped split partitions the key list. -/
theorem regionSplitRaw_perm (mapIds : List (Option ℚ)) :
    ((regionKeysOfRaw mapIds).flatMap (regionMapsOfRaw mapIds) ++
      ungroupedOfRaw mapIds).Perm mapIds := by
  have hkeys : (((regionKeysOfRaw mapIds).map Option.some) ++ [none]).Nodup := by
    apply List.Nodup.append
    · exact (nodup_firstDedup _).map (fun a b h => Option.some.inj h)
    · simp
    · intro κ hκ hcon
      simp only [List.mem_singleton] at hcon
      subst hcon
      obtain ⟨r, -, hr⟩ := List.mem_map.mp hκ
      exact Option.noConfusion hr
  have hcover : ∀ m ∈ mapIds,
      getMapRegionRaw m ∈ ((regionKeysOfRaw mapIds).map Option.some) ++ [none] := by
    intro m hm
    rcases hreg : getMapRegionRaw m with - | r
    · simp
    · apply List.mem_append_left
      exact List.mem_map.mpr ⟨r, mem_regionKeysOfRaw.mpr ⟨m, hm, hreg⟩, rfl⟩
  have hperm := flatMap_filter_perm getMapRegionRaw
    (((regionKeysOfRaw mapIds).map Option.some) ++ [none]) mapIds hkeys hcover
  rw [List.flatMap_append, List.flatMap_map] at hperm
  have h1 : (regionKeysOfRaw mapIds).flatMap
      (fun r => mapIds.filter (fun m => decide (getMapRegionRaw m = some r))) =
      (regionKeysOfRaw mapIds).flatMap (regionMapsOfRaw mapIds) := rfl
  have h2 : [Option.none (α := String)].flatMap
      (fun κ => mapIds.filter (fun m => decide (getMapRegionRaw m = κ))) =
      ungroupedOfRaw mapIds := by
    simp only [List.flatMap_cons, List.flatMap_nil, List.append_nil]
    rfl
  rw [h1, h2] at hperm
  exact hperm

theorem sortMapsRaw_perm (groups : List (Option ℚ × List RawWaypoint))
    (startMapId : Option (Option ℚ)) :
    (sortMapsRaw groups startMapId).Perm (groups.map Prod.fst) := by
  unfold sortMapsRaw
  dsimp only
  split_ifs with h1 h2
  · exact List.Perm.refl _
  · have hregs : ((sortedRegionKeysRaw groups (groups.map Prod.fst)
        startMapId).flatMap
        (sortedRegionMapsRaw groups (groups.map Prod.fst) startMapId)).Perm
        ((regionKeysOfRaw (groups.map Prod.fst)).flatMap
          (regionMapsOfRaw (groups.map Prod.fst))) := by
      refine ((List.Perm.flatMap_right _ (List.perm_insertionSort _ _)).trans ?_)
      exact flatMap_perm_of_pointwise (fun r _ => List.perm_insertionSort _ _)
    have hung : (sortedUngroupedRaw groups (groups.map Prod.fst)
        startMapId).Perm (ungroupedOfRaw (groups.map Prod.fst)) :=
      List.perm_insertionSort _ _
    exact (List.Perm.append hung hregs).trans
      ((List.perm_append_comm).trans (regionSplitRaw_perm (groups.map Prod.fst)))
  · have hregs : ((sortedRegionKeysRaw groups (groups.map Prod.fst)
        startMapId).flatMap
        (sortedRegionMapsRaw groups (groups.map Prod.fst) startMapId)).Perm
        ((regionKeysOfRaw (groups.map Prod.fst)).flatMap
          (regionMapsOfRaw (groups.map Prod.fst))) := by
      refine ((List.Perm.flatMap_right _ (List.perm_insertionSort _ _)).trans ?_)
      exact flatMap_perm_of_pointwise (fun r _ => List.perm_insertionSort _ _)
    have hung : (sortedUngroupedRaw groups (groups.map Prod.fst)
        startMapId).Perm (ungroupedOfRaw (groups.map Prod.fst)) :=
      List.perm_insertionSort _ _
    exact (List.Perm.append hregs hung).trans
      (regionSplitRaw_perm (groups.map Prod.fst))

private theorem assembleRouteRaw_aux_perm (ts : List RawWaypoint) :
    ∀ (keys : List (Option ℚ)) (acc : List RawWaypoint)
      (init : Option RawCoords),
      ((keys.foldl
        (fun (st : List RawWaypoint × Option RawCoords) m =>
          let sorted := sortWithinMapRaw (mapBucketRaw ts m) st.2
          (st.1 ++ sorted,
           if sorted.length > 0 then some ((sorted.getLastD default).coords)
           else st.2))
        (acc, init)).1).Perm (acc ++ keys.flatMap (mapBucketRaw ts)) := by
  intro keys
  induction keys with
  | nil =>
    intro acc init
    simp
  | cons m ks ih =>
    intro acc init
    rw [List.foldl_cons]
    refine (ih _ _).trans ?_
    rw [List.flatMap_cons, ← List.append_assoc]
    exact List.Perm.append
      (List.Perm.append_left acc (sortWithinMapRaw_perm _ _)) (List.Perm.refl _)

theorem assembleRouteRaw_perm (ts : List RawWaypoint)
    (keys : List (Option ℚ)) (init : Option RawCoords) :
    (assembleRouteRaw ts keys init).Perm (keys.flatMap (mapBucketRaw ts)) := by
  unfold assembleRouteRaw
  exact assembleRouteRaw_aux_perm ts keys [] init

theorem map_fst_groupByMapRaw (ts : List RawWaypoint) :
    (groupByMapRaw ts).map Prod.fst = rawMapKeys ts := by
  unfold groupByMapRaw
  rw [List.map_map]
  show List.map (fun m => m) (rawMapKeys ts) = rawMapKeys ts
  exact List.map_id' _

theorem flatMap_mapBucketRaw_perm {ts : List RawWaypoint}
    {keys : List (Option ℚ)} (hkeys : keys.Perm (rawMapKeys ts)) :
    (keys.flatMap (mapBucketRaw ts)).Perm ts := by
  refine (List.Perm.flatMap_right _ hkeys).trans ?_
  apply flatMap_filter_perm RawWaypoint.mapId (rawMapKeys ts) ts
    (nodup_rawMapKeys ts)
  intro t ht
  exact mem_rawMapKeys.mpr (List.mem_map.mpr ⟨t, ht, rfl⟩)

theorem improve2OptRaw_perm (ts : List RawWaypoint) :
    (improve2OptRaw ts).Perm ts :=
  improve2OptWith_perm accept2optRaw 50 ts

theorem optimizeRaw_perm (ts : List RawWaypoint) (options : RawOptions) :
    (optimizeRaw (some ts) options).Perm ts := by
  show (if ts.length ≤ 1 then ts
    else
      let result :=
        if options.useMapGrouping then
          assembleRouteRaw ts
            (sortMapsRaw (groupByMapRaw ts)
              (options.startTreasure.map RawWaypoint.mapId))
            (options.startTreasure.map RawWaypoint.coords)
        else
          sortWithinMapRaw ts (options.startTreasure.map RawWaypoint.coords)
      if options.use2Opt then improve2OptRaw result else result).Perm ts
  have hA : (assembleRouteRaw ts
      (sortMapsRaw (groupByMapRaw ts)
        (options.startTreasure.map RawWaypoint.mapId))
      (options.startTreasure.map RawWaypoint.coords)).Perm ts := by
    refine (assembleRouteRaw_perm _ _ _).trans ?_
    apply flatMap_mapBucketRaw_perm
    have := sortMapsRaw_perm (groupByMapRaw ts)
      (options.startTreasure.map RawWaypoint.mapId)
    rw [map_fst_groupByMapRaw] at this
    exact this
  have hB : (sortWithinMapRaw ts
      (options.startTreasure.map RawWaypoint.coords)).Perm ts :=
    sortWithinMapRaw_perm _ _
  split_ifs with h1 h2 h3 h4
  · exact List.Perm.refl _
  · exact (improve2OptRaw_perm _).trans hA
  · exact hA
  · exact (improve2OptRaw_perm _).trans hB
  · exact hB

/-- C3: contrary to the specification, the engine performs no input
validation: for every raw input — malformed records included — and every
option value, the fallible reading of `optimize` succeeds, returning a
permutation of the input (never an `InvalidInputError`, never a partial
result), and a null input yields the empty route. -/
theorem C3_no_validation_never_errors :
    ∀ (treasures : Option (List RawWaypoint)) (options : RawOptions),
      ∃ r, optimizeRawE treasures options = Except.ok r ∧
        (∀ ts, treasures = some ts → r.Perm ts) ∧
        (treasures = none → r = []) := by
  intro treasures options
  refine ⟨optimizeRaw treasures options, rfl, ?_, ?_⟩
  · intro ts hts
    subst hts
    exact optimizeRaw_perm ts options
  · intro hn
    subst hn
    rfl

/-- Witness for C3 at a concrete malformed input. -/
theorem C3_no_validation_never_errors_witness :
    ∃ r, optimizeRawE (some [⟨none, ⟨none, none⟩⟩]) ⟨true, false, none⟩ =
        Except.ok r ∧ r.Perm [⟨none, ⟨none, none⟩⟩] := by
  obtain ⟨r, h1, h2, -⟩ := C3_no_validation_never_errors
    (some [⟨none, ⟨none, none⟩⟩]) ⟨true, false, none⟩
  exact ⟨r, h1, h2 _ rfl⟩

/-- A malformed input: a `NaN` map id with a `NaN` x-coordinate, a
well-formed record, and a `NaN` map id with a `NaN` y-coordinate. -/
def rawBadInput : List RawWaypoint :=
  [⟨none, ⟨none, some 3⟩⟩, ⟨some 367, ⟨some 1, some 1⟩⟩,
   ⟨none, ⟨some 2, none⟩⟩]

set_option maxHeartbeats 8000000 in
set_option maxRecDepth 16000 in
/-- Counterexample to C3 as stated: on an input containing malformed records
(`NaN` map id, `NaN` coordinate) the call does not abort with an
`InvalidInputError`; it returns a complete route — map 367 first (the sole
integer-like key), then the `"NaN"`-keyed bucket in input order, every
`NaN`-distance comparison being false. -/
theorem C3_counterexample :
    (∃ w ∈ rawBadInput, w.mapId = none ∧ w.coords.x = none) ∧
      optimizeRawE (some rawBadInput) ⟨true, false, none⟩ =
        Except.ok [⟨some 367, ⟨some 1, some 1⟩⟩, ⟨none, ⟨none, some 3⟩⟩,
          ⟨none, ⟨some 2, none⟩⟩] := by
  constructor
  · exact ⟨⟨none, ⟨none, some 3⟩⟩, by simp [rawBadInput], rfl, rfl⟩
  · show Except.ok (optimizeRaw (some rawBadInput) ⟨true, false, none⟩) = _
    have h : optimizeRaw (some rawBadInput) ⟨true, false, none⟩ =
        [⟨some 367, ⟨some 1, some 1⟩⟩, ⟨none, ⟨none, some 3⟩⟩,
         ⟨none, ⟨some 2, none⟩⟩] := by
      simp +decide [rawBadInput, optimizeRaw, assembleRouteRaw, sortMapsRaw,
        groupByMapRaw, rawMapKeys, mapBucketRaw, lookupBucketRaw, mapCountRaw,
        sortedRegionKeysRaw, sortedRegionMapsRaw, sortedUngroupedRaw,
        regionKeysOfRaw, regionMapsOfRaw, ungroupedOfRaw, regionCntRaw,
        startRegionOfRaw, startTruthyRaw, startLe, getMapRegionRaw,
        getMapRegion, MAP_REGION_GROUPS, rawIsIndexKey, firstDedup,
        firstDedupAux, List.insertionSort, List.orderedInsert,
        sortWithinMapRaw, rawMinIdx, rawFmAux, spliceRun, rawD2, List.foldl,
        Rat.den_ofNat, Rat.num_ofNat]
    rw [h]

end TF
